import Mathlib

set_option maxHeartbeats 1000000
set_option maxRecDepth 40000

/-!
Verification development for the Chartonics FSM-to-VHDL compiler
(`src/server/app/processing/`).  The Python pipeline is embedded shallowly:
dictionaries become association lists (insertion order preserved, last
write wins on lookup where Python overwrites), Python `None` becomes
`Option.none`, the recursive DFS is given explicit fuel (an `Option`
result, `none` meaning the fuel ran out), and the places where the Python
code can raise are given an `Except` result.  The symbolic-algebra
dependency (sympy) is not part of the repository; its Boolean operations
are modelled by the smart constructors below, following its documented
automatic simplifications and the contract of spec section 4.F.
-/

namespace Chartonics

/-- A Drawflow connection record, with the two keys the pipeline reads:
`node` (the peer node id, `connection.get('node')`) and `input` (the
originating port name, `conn.get('input')`).  A key absent from the
document is `none`. -/
structure Conn where
  node : Option String
  input : Option String
deriving DecidableEq

/-- A filtered node as produced by `parse_drawflow_data` for a well-shaped
entry: `id` from the document (an integer when present), `type` from the
document's `name` field, the two port maps, and the text blob
`node_data`.  Port maps are association lists from port name to the
connection list stored under `connections`. -/
structure Node where
  id : Option Int
  type : Option String
  inputs : List (String × List Conn)
  outputs : List (String × List Conn)
  node_data : String
deriving DecidableEq

/-- `str(node.get('id'))` for a node whose id is present. -/
def strId (n : Node) : Option String := n.id.map (fun i => toString i)

/-- Lookup in the `nodes_map` dictionary that `find_link_paths` builds:
keyed by the stringified id, a later node with the same key overwrites an
earlier one, so the last matching node wins. -/
def lookupNode (nodes : List Node) (k : String) : Option Node :=
  (nodes.filter (fun n => strId n = some k)).getLast?

/-- The keys of `nodes_map` (with multiplicity; only membership and a
cardinality bound are ever used). -/
def mapKeys (nodes : List Node) : List String := nodes.filterMap strId

/-- The seed list `start_node_ids`: stringified ids of nodes of type
`state`, in list order, among nodes whose id is present. -/
def start_node_ids (nodes : List Node) : List String :=
  nodes.filterMap (fun n =>
    match strId n with
    | some s => if n.type = some "state" then some s else none
    | none => none)

/-- Whether the node that `k` denotes in the node map is a `state` node. -/
def isStateId (nodes : List Node) (k : String) : Bool :=
  match lookupNode nodes k with
  | some n => n.type = some "state"
  | none => false

/-- Result of the DFS: the collected link paths and the paths reported by
the cycle diagnostic, each a list of stringified node ids. -/
abbrev DfsRes := List (List String) × List (List String)

/-- One connection of the DFS: skip a missing or empty target id (`if not
target_node_id`), skip a target absent from the map, emit a completed path
when the target is a `state` node, report a cycle when the target is
already on this branch, and otherwise recurse (`rec` is the recursive call
of `_dfs_find_paths` at the target with the extended path; the visited set
is passed unchanged, so it is captured in `rec`). -/
def dfs_edge (nodes : List Node) (rec : String → List String → Option DfsRes)
    (c : Conn) (currentPath vis : List String) : Option DfsRes :=
  match c.node with
  | none => some ([], [])
  | some tid =>
    if tid = "" then some ([], [])
    else
      match lookupNode nodes tid with
      | none => some ([], [])
      | some tnode =>
        if tnode.type = some "state" then some ([currentPath ++ [tid]], [])
        else if tid ∈ vis then some ([], [currentPath ++ [tid]])
        else rec tid (currentPath ++ [tid])

/-- The loop over the connections of one output port. -/
def dfs_conns (nodes : List Node) (rec : String → List String → Option DfsRes) :
    List Conn → List String → List String → Option DfsRes
  | [], _, _ => some ([], [])
  | c :: rest, currentPath, vis => do
    let r₁ ← dfs_edge nodes rec c currentPath vis
    let r₂ ← dfs_conns nodes rec rest currentPath vis
    some (r₁.1 ++ r₂.1, r₁.2 ++ r₂.2)

/-- The loop over `outputs.items()`, in dictionary (insertion) order. -/
def dfs_ports (nodes : List Node) (rec : String → List String → Option DfsRes) :
    List (String × List Conn) → List String → List String → Option DfsRes
  | [], _, _ => some ([], [])
  | (_, conns) :: rest, currentPath, vis => do
    let r₁ ← dfs_conns nodes rec conns currentPath vis
    let r₂ ← dfs_ports nodes rec rest currentPath vis
    some (r₁.1 ++ r₂.1, r₁.2 ++ r₂.2)

/-- Fueled model of `_dfs_find_paths`: look the current node up, add it to
the per-branch visited set, and walk every output port.  `none` means the
fuel ran out; the Python recursion carries no fuel, and the adequacy
theorem below shows the initial fuel of `find_link_paths` is never
exhausted. -/
def dfs_node (nodes : List Node) : Nat → String → List String → List String → Option DfsRes
  | 0, _, _, _ => none
  | fuel + 1, currentId, currentPath, visited =>
    match lookupNode nodes currentId with
    | none => some ([], [])
    | some node =>
      let vis := visited.insert currentId
      if node.outputs.isEmpty then some ([], [])
      else dfs_ports nodes (fun t p => dfs_node nodes fuel t p vis) node.outputs currentPath vis
termination_by structural fuel _ _ _ => fuel

/-- The loop of `find_link_paths` over the seed states, appending each
seed's results. -/
def dfs_seeds (nodes : List Node) (fuel : Nat) : List String → Option DfsRes
  | [] => some ([], [])
  | s :: rest => do
    let r₁ ← dfs_node nodes fuel s [s] []
    let r₂ ← dfs_seeds nodes fuel rest
    some (r₁.1 ++ r₂.1, r₁.2 ++ r₂.2)

/-- Fuel that the adequacy theorem shows is always sufficient: one more
than the number of nodes in the map (the DFS depth is bounded by the
number of distinct visited ids, which all come from the map). -/
def initial_fuel (nodes : List Node) : Nat := (mapKeys nodes).length + 1

/-- `find_link_paths` with its three early returns (empty node list, empty
node map, no seed states), as an `Option` that is `none` only on fuel
exhaustion. -/
def find_link_paths_opt (nodes : List Node) : Option DfsRes :=
  if nodes.isEmpty then some ([], [])
  else if (mapKeys nodes).isEmpty then some ([], [])
  else if (start_node_ids nodes).isEmpty then some ([], [])
  else dfs_seeds nodes (initial_fuel nodes) (start_node_ids nodes)

/-- The list of link paths `find_link_paths` returns. -/
def find_link_paths (nodes : List Node) : List (List String) :=
  ((find_link_paths_opt nodes).getD ([], [])).1

/-- The paths reported by the cycle diagnostic during the same run. -/
def find_link_cycles (nodes : List Node) : List (List String) :=
  ((find_link_paths_opt nodes).getD ([], [])).2

/-! ### Path annotation (`parser.get_formatted_details_for_all_paths`) -/

/-- One formatted step `[id, node_data, type, indicator]` of an annotated
path. -/
structure FNode where
  id : Option Int
  node_data : String
  type : Option String
  indicator : Option Bool
deriving DecidableEq

/-- `str(conn.get('node'))`: Python renders a missing key as the string
None. -/
def connNodeStr (c : Conn) : String :=
  match c.node with
  | some s => s
  | none => "None"

/-- Lookup of one port's connection list in a port map
(`inputs.get(port, {}).get('connections', [])`). -/
def portConns (m : List (String × List Conn)) (port : String) : List Conn :=
  match m.find? (fun p => p.1 = port) with
  | some p => p.2
  | none => []

/-- The indicator of a step: the first connection on the node's `input_1`
port whose peer is the path predecessor decides it by its originating
port name (`output_1` ↦ true, `output_2` ↦ false, anything else ↦ none);
no matching connection, or no predecessor, gives none. -/
def stepIndicator (node : Node) (prev : Option String) : Option Bool :=
  match prev with
  | none => none
  | some prevId =>
    match (portConns node.inputs "input_1").find? (fun c => connNodeStr c = prevId) with
    | some c =>
      if c.input = some "output_1" then some true
      else if c.input = some "output_2" then some false
      else none
    | none => none

/-- One step of the annotated path: a node id missing from the map becomes
a `none` placeholder. -/
def formatOne (nodes : List Node) (prev : Option String) (nodeId : String) : Option FNode :=
  match lookupNode nodes nodeId with
  | some node => some ⟨node.id, node.node_data, node.type, stepIndicator node prev⟩
  | none => none

/-- The inner loop over one path, threading the predecessor id. -/
def formatPath (nodes : List Node) : Option String → List String → List (Option FNode)
  | _, [] => []
  | prev, x :: xs => formatOne nodes prev x :: formatPath nodes (some x) xs

/-- `get_formatted_details_for_all_paths`: the early returns for an empty
path list, an empty node list and an empty node map, then one formatted
path per input path.  (The source also replaces a non-list entry of the
path list by `None`; path entries here are lists by type, so every
produced entry is `some`.) -/
def get_formatted_details_for_all_paths (all_paths : List (List String)) (nodes : List Node) :
    List (Option (List (Option FNode))) :=
  if all_paths.isEmpty then []
  else if nodes.isEmpty then []
  else if (mapKeys nodes).isEmpty then []
  else all_paths.map (fun p => some (formatPath nodes none p))

/-! ### The symbolic Boolean engine

The pipeline builds its equations with sympy's `true`, `false`, `symbols`,
`And`, `Or` and `Not`.  sympy is a library dependency, not code of this
repository; the constructors below model its documented automatic
simplifications: associative flattening, removal of the identity element,
short-circuiting on the absorbing element, deduplication, and canonically
sorted argument lists (plain symbols sort before negations, each group by
symbol name).  sympy's complementary-pair collapse applies only to
Relational arguments, which never occur here, so it is not modelled. -/

inductive BExpr where
  | tru
  | fls
  | var (name : String)
  | notE (e : BExpr)
  | andE (args : List BExpr)
  | orE (args : List BExpr)
  | unexpected (typeName : String)

mutual

/-- Structural equality of expressions, sympy's `==`. -/
def beqB : BExpr → BExpr → Bool
  | .tru, .tru => true
  | .fls, .fls => true
  | .var a, .var b => a == b
  | .notE a, .notE b => beqB a b
  | .andE as, .andE bs => beqL as bs
  | .orE as, .orE bs => beqL as bs
  | .unexpected a, .unexpected b => a == b
  | _, _ => false

/-- Structural equality of argument lists. -/
def beqL : List BExpr → List BExpr → Bool
  | [], [] => true
  | x :: xs, y :: ys => beqB x y && beqL xs ys
  | _, _ => false

end

/-- Generic first-occurrence deduplication (a Python `set` that remembers
insertion order). -/
def dedupAux {α : Type} [DecidableEq α] (seen : List α) : List α → List α
  | [] => []
  | x :: xs => if x ∈ seen then dedupAux seen xs else x :: dedupAux (x :: seen) xs

/-- First-occurrence deduplication of a list. -/
def dedupFirst {α : Type} [DecidableEq α] (l : List α) : List α := dedupAux [] l

/-- Lexicographic comparison of character lists by code point, Python's
string `<=`. -/
def pyLeStrAux : List Char → List Char → Bool
  | [], _ => true
  | _ :: _, [] => false
  | a :: as, b :: bs => if a == b then pyLeStrAux as bs else decide (a.toNat < b.toNat)

/-- Python `<=` on strings. -/
def pyLeStr (a b : String) : Bool := pyLeStrAux a.toList b.toList

/-- Python `<=` on integers. -/
def pyLeInt (a b : Int) : Bool := decide (a ≤ b)

/-- Insertion into a sorted list (used for Python's `sorted`). -/
def insertLeBy {α : Type} (le : α → α → Bool) (a : α) : List α → List α
  | [] => [a]
  | b :: bs => if le a b then a :: b :: bs else b :: insertLeBy le a bs

/-- Insertion sort, the model of Python's `sorted`. -/
def sortLeBy {α : Type} (le : α → α → Bool) (l : List α) : List α := l.foldr (insertLeBy le) []

/-- The sort key that orders the arguments of a canonical `And`/`Or`:
plain symbols before negations, each by name; composite arguments keep
their accumulation order. -/
def litKey : BExpr → Nat × String
  | .tru => (0, "")
  | .fls => (0, "")
  | .var n => (1, n)
  | .notE (.var n) => (2, n)
  | .notE _ => (3, "")
  | .andE _ => (4, "")
  | .orE _ => (5, "")
  | .unexpected t => (6, t)

/-- Comparison of the sort keys. -/
def bLe (a b : BExpr) : Bool :=
  let ka := litKey a
  let kb := litKey b
  if ka.1 < kb.1 then true
  else if kb.1 < ka.1 then false
  else pyLeStr ka.2 kb.2

/-- Stable insertion for the canonical argument order. -/
def insertB (a : BExpr) : List BExpr → List BExpr
  | [] => [a]
  | b :: bs => if bLe a b then a :: b :: bs else b :: insertB a bs

/-- Canonical sort of an argument list. -/
def sortCanon (l : List BExpr) : List BExpr := l.foldr insertB []

/-- sympy `Not`: constants and double negations evaluate, everything else
stays under the negation. -/
def sNot : BExpr → BExpr
  | .tru => .fls
  | .fls => .tru
  | .notE e => e
  | e => .notE e

/-- The arguments an expression contributes to an enclosing `And`
(associative flattening). -/
def andArgs : BExpr → List BExpr
  | .andE args => args
  | e => [e]

/-- The arguments an expression contributes to an enclosing `Or`. -/
def orArgs : BExpr → List BExpr
  | .orE args => args
  | e => [e]

/-- First-occurrence deduplication of an argument list under structural
equality. -/
def dedupBAux (seen : List BExpr) : List BExpr → List BExpr
  | [] => []
  | x :: xs => if seen.any (fun y => beqB x y) then dedupBAux seen xs
               else x :: dedupBAux (x :: seen) xs

/-- First-occurrence deduplication of an argument list. -/
def dedupB (l : List BExpr) : List BExpr := dedupBAux [] l

/-- sympy `And(a, b)`: flatten, drop `true` identities, short-circuit on
a `false` absorber, deduplicate, and order canonically.  (sympy collapses
complementary pairs only for Relational arguments, never for the plain
symbols this program uses, so no complement check appears here.) -/
def sAnd (a b : BExpr) : BExpr :=
  let args := (andArgs a ++ andArgs b).filter (fun x => !beqB x BExpr.tru)
  if args.any (fun x => beqB x BExpr.fls) then .fls
  else
    match sortCanon (dedupB args) with
    | [] => .tru
    | [x] => x
    | xs => .andE xs

/-- sympy `Or(a, b)`: flatten, drop `false` identities, short-circuit on
a `true` absorber, deduplicate, and order canonically. -/
def sOr (a b : BExpr) : BExpr :=
  let args := (orArgs a ++ orArgs b).filter (fun x => !beqB x BExpr.fls)
  if args.any (fun x => beqB x BExpr.tru) then .tru
  else
    match sortCanon (dedupB args) with
    | [] => .fls
    | [x] => x
    | xs => .orE xs

mutual

/-- Truth-value of an expression under a valuation of the variables. -/
def evalB (f : String → Bool) : BExpr → Bool
  | .tru => true
  | .fls => false
  | .var n => f n
  | .notE e => !(evalB f e)
  | .andE args => evalAll f args
  | .orE args => evalAny f args
  | .unexpected _ => false

/-- Conjunction of the truth-values of a list. -/
def evalAll (f : String → Bool) : List BExpr → Bool
  | [] => true
  | e :: es => evalB f e && evalAll f es

/-- Disjunction of the truth-values of a list. -/
def evalAny (f : String → Bool) : List BExpr → Bool
  | [] => false
  | e :: es => evalB f e || evalAny f es

end

mutual

/-- The variable names occurring in an expression, in occurrence order. -/
def varsOf : BExpr → List String
  | .tru => []
  | .fls => []
  | .var n => [n]
  | .notE e => varsOf e
  | .andE args => varsOfList args
  | .orE args => varsOfList args
  | .unexpected _ => []

/-- The variable names occurring in an argument list. -/
def varsOfList : List BExpr → List String
  | [] => []
  | e :: es => varsOf e ++ varsOfList es

end

/-- The disjuncts of an equation: the argument list of a top-level `Or`,
otherwise the expression itself. -/
def disjuncts (e : BExpr) : List BExpr := orArgs e

/-- All valuations of `n` variables, each row a list of Booleans. -/
def allRows : Nat → List (List Bool)
  | 0 => [[]]
  | n + 1 => (allRows n).map (fun r => false :: r) ++ (allRows n).map (fun r => true :: r)

/-- The valuation a row denotes over a variable list. -/
def rowFun (vs : List String) (row : List Bool) : String → Bool :=
  fun n =>
    match (vs.zip row).find? (fun p => p.1 = n) with
    | some p => p.2
    | none => false

/-- The minterm of a row: the conjunction of one literal per variable, in
variable order. -/
def mintermRow (vs : List String) (row : List Bool) : BExpr :=
  (vs.zip row).foldl (fun acc p => sAnd acc (if p.2 then BExpr.var p.1 else sNot (BExpr.var p.1))) .tru

/-- Modelled from the spec: section 4.F's logic minimizer
(`sympy.simplify_logic(expr, form='dnf', force=True)` in
`state_reducer.py`; sympy itself is a dependency, not repository code).
The model returns a semantically equivalent sum of products with `true`
and `false` as fixed points: the disjunction of the minterms of the
satisfying rows over the sorted variable set, or a constant when the
expression is one. -/
def simplifySop (e : BExpr) : BExpr :=
  let vs := sortLeBy pyLeStr (dedupFirst (varsOf e))
  let rows := allRows vs.length
  let sat := rows.filter (fun r => evalB (rowFun vs r) e)
  if sat.length = rows.length then .tru
  else if sat.isEmpty then .fls
  else (sat.map (fun r => mintermRow vs r)).foldl sOr .fls

/-- `state_reducer.simplify_equations`: each equation is reduced to SOP
form, keys and their order unchanged.  (The source falls back to the
original expression when the minimizer throws; the model's minimizer is
total.) -/
def simplify_equations (eqns : List (String × BExpr)) : List (String × BExpr) :=
  eqns.map (fun p => (p.1, simplifySop p.2))

/-! ### Table construction (`table_maker.py`) -/

/-- Python `str.splitlines` for line-feed separated text: like splitting
on the separator, except that a trailing separator adds no empty final
line and the empty string has no lines. -/
def pySplitlines (s : String) : List String :=
  if s = "" then []
  else
    let parts := s.splitOn "\n"
    if parts.getLast? = some "" then parts.dropLast else parts

/-- Update of one key in an association list with Python dict semantics:
an existing key keeps its position and gets the new value, a new key is
appended. -/
def assocSet {α β : Type} [DecidableEq α] (m : List (α × β)) (k : α) (v : β) : List (α × β) :=
  if m.any (fun p => p.1 = k) then m.map (fun p => if p.1 = k then (k, v) else p)
  else m ++ [(k, v)]

/-- Adding to a Python `set`, modelled with first-insertion order (the
result is always sorted before use). -/
def addToSet {α : Type} [DecidableEq α] (l : List α) (x : α) : List α :=
  if x ∈ l then l else l ++ [x]

/-- `prepare_table_elements`: collect state ids, Decision input names,
Event output names and the Moore output table, then sort the first three.
(On an empty node list the source returns a 3-tuple where its annotation
promises 4 values, a latent caller bug; the model returns 4 empty
collections there, a case none of the theorems exercises.) -/
def prepare_table_elements (nodes : List Node) :
    List Int × List String × List String × List (Int × List String) :=
  if nodes.isEmpty then ([], [], [], [])
  else
    let res := nodes.foldl (fun acc n =>
      let states := acc.1
      let uin := acc.2.1
      let evout := acc.2.2.1
      let souts := acc.2.2.2
      match n.type with
      | some "state" =>
        match n.id with
        | some i =>
          let souts' := if n.node_data ≠ "" then assocSet souts i (pySplitlines n.node_data) else souts
          (states ++ [i], uin, evout, souts')
        | none => acc
      | some "decision" =>
        if n.node_data ≠ "" then (states, addToSet uin n.node_data, evout, souts) else acc
      | some "event" =>
        if n.node_data ≠ "" then (states, uin, addToSet evout n.node_data, souts) else acc
      | _ => acc)
      (([] : List Int), ([] : List String), ([] : List String), ([] : List (Int × List String)))
    (sortLeBy pyLeInt res.1, sortLeBy pyLeStr res.2.1, sortLeBy pyLeStr res.2.2.1, res.2.2.2)

/-- Python `format(i, '0<w>b')`: the binary digits of `i`, left-padded
with zeros to width `w`. -/
def padBin (i : Nat) (w : Nat) : String :=
  let s := (Nat.toDigits 2 i).asString
  if s.length < w then (List.replicate (w - s.length) '0').asString ++ s else s

/-- `math.ceil(math.log2 n)` for `n ≥ 1`: the least `k` with `n ≤ 2 ^ k`
(`math.log2` is exact on the powers of two, so the float ceiling agrees
with the exact one). -/
def ceilLog2 (n : Nat) : Nat :=
  ((List.range (n + 1)).find? (fun k => n ≤ 2 ^ k)).getD 0

/-- `assign_state_codes`: sequential binary codes of uniform width
`ceil(log2(n))` (1 when there is a single state), assigned in list order;
a duplicated state id keeps its last code, as a Python dict would. -/
def assign_state_codes (states : List Int) : List (Int × String) :=
  if states.length = 0 then []
  else
    let numBits := if states.length > 1 then ceilLog2 states.length else 1
    states.enum.foldl (fun m p => assocSet m p.2 (padBin p.1 numBits)) []

/-! ### Equation synthesis (`table_maker.generate_boolean_equations`)

The source keys its equation maps by sympy symbols; `symbols('Y:n')`
yields the same objects for the present-state tuple `Y` and the
"next-state" tuple `Y_next`, so the keys are just the symbol names. -/

/-- The name of state-bit symbol `Y[i]`. -/
def yName (i : Nat) : String := "Y" ++ toString i

/-- `state_codes.get(id)` for a formatted step's id field. -/
def codeLookup (codes : List (Int × String)) (k : Option Int) : Option String :=
  match k with
  | some i =>
    match codes.find? (fun p => p.1 = i) with
    | some p => some p.2
    | none => none
  | none => none

/-- Lookup of an equation in an equation map. -/
def eqnLookup (m : List (String × BExpr)) (k : String) : Option BExpr :=
  match m.find? (fun p => p.1 = k) with
  | some p => some p.2
  | none => none

/-- `m[k] = Or(m[k], x)`: read-modify-write of one equation.  (On a key
that is not bound the source would raise `KeyError`; every use below is on
an initialised key, where the model leaves the map unchanged.) -/
def orInto (m : List (String × BExpr)) (k : String) (x : BExpr) : List (String × BExpr) :=
  match m.find? (fun p => p.1 = k) with
  | some p => m.map (fun q => if q.1 = k then (k, sOr p.2 x) else q)
  | none => m

/-- The present-state minterm of a code string: `Y[i]` for a `1` bit,
`Not(Y[i])` otherwise, conjoined left to right starting from `true`. -/
def presentMinterm (code : String) : BExpr :=
  code.toList.enum.foldl
    (fun acc p => sAnd acc (if p.2 = '1' then BExpr.var (yName p.1) else sNot (BExpr.var (yName p.1))))
    .tru

/-- An atomic operand of the Boolean engine: not a constant, and
contributing only itself to an enclosing `And` or `Or` (a symbol, a
negation, or an unexpected leaf). -/
def atomicB (a : BExpr) : Prop :=
  a ≠ BExpr.tru ∧ a ≠ BExpr.fls ∧ andArgs a = [a] ∧ orArgs a = [a]

/-- Shape of a product term the pipeline builds from at least one
literal: not a constant, not a top-level `Or`, and every conjunct
atomic. -/
def ALit (e : BExpr) : Prop :=
  e ≠ BExpr.tru ∧ e ≠ BExpr.fls ∧ orArgs e = [e] ∧ ∀ a ∈ andArgs e, atomicB a

/-- Shape of an accumulated output equation: every disjunct is a
non-`true` term that contributes only itself to an enclosing `Or`. -/
def GoodE (e : BExpr) : Prop :=
  ∀ d ∈ orArgs e, d ≠ BExpr.tru ∧ orArgs d = [d]

/-- The path condition: the start state's minterm conjoined with one
literal per Decision step whose indicator is known.  A step or
predecessor that is a `None` placeholder, a Decision text that is not a
known input symbol, and an indicator of `None` each contribute nothing
(the source logs a warning and keeps the condition). -/
def pathCondition (inputVars : List String) (path : List (Option FNode)) (startCode : String) : BExpr :=
  (path.zip (path.drop 1)).foldl
    (fun cond pc =>
      match pc.1, pc.2 with
      | some prev, some cur =>
        if prev.type = some "decision" then
          if prev.node_data ∈ inputVars then
            match cur.indicator with
            | some true => sAnd cond (BExpr.var prev.node_data)
            | some false => sAnd cond (sNot (BExpr.var prev.node_data))
            | none => cond
          else cond
        else cond
      | _, _ => cond)
    (presentMinterm startCode)

/-- Processing of one annotated path: skip it unless it is present,
non-empty, starts at a step with a known state code and ends at a `state`
step with a known code; otherwise OR the path condition into the
next-state equation of every `1` bit of the end code, and into the
equation of every Event output the path crosses. -/
def processPath (inputVars : List String) (eventOutputs : List String) (allOutputNames : List String)
    (codes : List (Int × String))
    (acc : (List (String × BExpr)) × (List (String × BExpr)))
    (pOpt : Option (List (Option FNode))) :
    (List (String × BExpr)) × (List (String × BExpr)) :=
  match pOpt with
  | none => acc
  | some path =>
    match path.head? with
    | none => acc
    | some none => acc
    | some (some sd) =>
      match codeLookup codes sd.id with
      | none => acc
      | some startCode =>
        let cond := pathCondition inputVars path startCode
        match path.getLast? with
        | none => acc
        | some none => acc
        | some (some ed) =>
          if ed.type = some "state" then
            match codeLookup codes ed.id with
            | none => acc
            | some endCode =>
              let nse := endCode.toList.enum.foldl
                (fun m p => if p.2 = '1' then orInto m (yName p.1) cond else m) acc.1
              let oe := path.foldl
                (fun m stepOpt =>
                  match stepOpt with
                  | none => m
                  | some st =>
                    if st.type = some "event" ∧ st.node_data ∈ eventOutputs then
                      if st.node_data ∈ allOutputNames then orInto m st.node_data cond
                      else m
                    else m) acc.2
              (nse, oe)
          else acc

/-- One step of the Moore output loop (the body of `for output_name in
output_list` in step 5): skip names outside the symbol table, skip a
missing or falsy (empty) state code, otherwise OR the state's minterm
into the output's equation. -/
def mooreStep (allOutputNames : List String) (codes : List (Int × String)) (sid : Int)
    (m : List (String × BExpr)) (name : String) : List (String × BExpr) :=
  if name ∈ allOutputNames then
    match codes.find? (fun q => q.1 = sid) with
    | some q => if q.2 = "" then m else orInto m name (presentMinterm q.2)
    | none => m
  else m

/-- `generate_boolean_equations`: empty maps unless both the path list and
the state codes are non-empty and the first code is non-empty; otherwise
initialise one equation per state bit and per output name to `false`,
fold the annotated paths (next-state and Mealy updates), then OR each
Moore state's minterm into its outputs' equations (`if state_code:` skips
a missing state code and also a falsy — empty — one). -/
def generate_boolean_equations (paths : List (Option (List (Option FNode))))
    (codes : List (Int × String)) (inputVars : List String)
    (eventOutputs : List String) (stateOutputs : List (Int × List String)) :
    (List (String × BExpr)) × (List (String × BExpr)) :=
  if paths.isEmpty ∨ codes.isEmpty then ([], [])
  else
    let numBits := ((codes.head?.map (fun p => p.2.length)).getD 0)
    if numBits = 0 then ([], [])
    else
      let flat := (stateOutputs.map (fun p => p.2)).flatten
      let allOutputNames := dedupFirst (eventOutputs ++ flat)
      let nse0 := (List.range numBits).map (fun i => (yName i, BExpr.fls))
      let oe0 := allOutputNames.map (fun n => (n, BExpr.fls))
      let folded := paths.foldl (processPath inputVars eventOutputs allOutputNames codes) (nse0, oe0)
      let oe2 := stateOutputs.foldl
        (fun m p => p.2.foldl (mooreStep allOutputNames codes p.1) m) folded.2
      (folded.1, oe2)

/-! ### VHDL emission (`vhdl_generator.py`) -/

/-- Python `str.ljust(8)`. -/
def ljust8 (s : String) : String :=
  if s.length < 8 then s ++ (List.replicate (8 - s.length) ' ').asString else s

/-- Python whitespace for `str.rstrip`. -/
def pyIsSpace (c : Char) : Bool :=
  c == ' ' || c == '\t' || c == '\n' || c == '\r'

/-- Python `str.rstrip()`. -/
def pyRstrip (s : String) : String :=
  ((s.toList.reverse.dropWhile pyIsSpace).reverse).asString

/-- Substring test: whether `pat` is a prefix of `l`. -/
def leadsList : List Char → List Char → Bool
  | [], _ => true
  | _ :: _, [] => false
  | a :: as, b :: bs => a == b && leadsList as bs

/-- Substring test over character lists. -/
def occursList (pat : List Char) : List Char → Bool
  | [] => leadsList pat []
  | c :: cs => leadsList pat (c :: cs) || occursList pat cs

/-- Whether `pat` occurs inside `hay`. -/
def strContains (hay pat : String) : Bool := occursList pat.toList hay.toList

/-- Python `str.removesuffix`. -/
def removeSuffixStr (s suf : String) : String :=
  if leadsList suf.toList.reverse s.toList.reverse then
    (s.toList.take (s.length - suf.length)).asString
  else s

/-- `_get_state_bit_vhdl`: the VHDL slice of a state-bit symbol; the
fallback string is the source's `ValueError` branch, unreachable because
the caller checks membership first. -/
def get_state_bit_vhdl (stateVars : List String) (signame : String) (name : String) : String :=
  match stateVars.indexOf? name with
  | some i => signame ++ "(" ++ toString i ++ ")"
  | none => "'" ++ name ++ "_ERROR'"

mutual

/-- `sympy_expr_to_vhdl`: recursive rendering of an expression.  `true`
and `false` become the std_logic literals, a negation is parenthesized, a
conjunction or disjunction joins its parenthesized arguments, a state-bit
symbol becomes a slice of the state signal, any other symbol renders as
its name, and an object of unexpected type becomes a quoted placeholder
naming the type. -/
def sympy_expr_to_vhdl (stateVars : List String) (signame : String) : BExpr → String
  | .tru => "'1'"
  | .fls => "'0'"
  | .notE e => "(not " ++ sympy_expr_to_vhdl stateVars signame e ++ ")"
  | .andE args => String.intercalate " and " (vhdlArgs stateVars signame args)
  | .orE args => String.intercalate " or " (vhdlArgs stateVars signame args)
  | .var n => if n ∈ stateVars then get_state_bit_vhdl stateVars signame n else n
  | .unexpected t => "'UNEXPECTED_EXPR_" ++ t ++ "'"

/-- The parenthesized renderings of an argument list. -/
def vhdlArgs (stateVars : List String) (signame : String) : List BExpr → List String
  | [] => []
  | e :: es => ("(" ++ sympy_expr_to_vhdl stateVars signame e ++ ")") :: vhdlArgs stateVars signame es

end

/-- `generate_vhdl`.  The one modelled raise is the construction of
`outputs_sym_map`: iterating `sympy.symbols(','.join(outputs_list))`
raises `TypeError` when the joined text holds exactly one name, because a
lone sympy `Symbol` is not iterable (with two or more names `symbols`
returns a tuple, and with none the conditional skips the call). -/
def generate_vhdl (entityName : String) (inputsList : List String) (outputsList0 : List String)
    (codes : List (Int × String)) (nse : List (String × BExpr)) (oe : List (String × BExpr)) :
    Except String String :=
  if codes.isEmpty ∨ (nse.isEmpty ∧ oe.isEmpty) then
    Except.ok "-- VHDL Generation Error: Missing state codes or equations."
  else
    let outputsList := dedupFirst outputsList0
    let numBits := ((codes.head?.map (fun p => p.2.length)).getD 0)
    if numBits = 0 then Except.ok "-- VHDL Generation Error: Invalid state codes (0 bits)."
    else
      let Y := (List.range numBits).map yName
      let resetCode := (List.replicate numBits '0').asString
      let header := "\nlibrary IEEE;\nuse IEEE.STD_LOGIC_1164.ALL;\n\nentity " ++ entityName ++
        " is\n    port (\n        clk     : in  std_logic;\n        reset   : in  std_logic;\n"
      let withInputs :=
        if inputsList.isEmpty then header
        else header ++ "\n        -- Inputs\n" ++
          String.join (inputsList.map (fun nm => "        " ++ ljust8 nm ++ ": in  std_logic;\n"))
      let withPorts :=
        if ¬ outputsList.isEmpty then
          let base :=
            if ¬ inputsList.isEmpty then removeSuffixStr (pyRstrip withInputs) ";" ++ ";\n"
            else withInputs
          base ++ "\n        -- Outputs\n" ++
            String.join (outputsList.enum.map (fun p =>
              "        " ++ ljust8 p.2 ++ ": out std_logic" ++
                (if p.1 < outputsList.length - 1 then ";\n" else "\n")))
        else if ¬ inputsList.isEmpty then removeSuffixStr (pyRstrip withInputs) ";" ++ "\n"
        else withInputs
      let archHead := withPorts ++ "    );\nend entity " ++ entityName ++
        ";\n\narchitecture Behavioral of " ++ entityName ++
        " is\n\n    -- State register and next state logic signals\n"
      let withSignal :=
        if numBits > 0 then
          archHead ++ "    signal current_state, next_state : std_logic_vector(" ++
            toString (numBits - 1) ++ " downto 0);\n"
        else archHead ++ "    -- No state bits defined.\n"
      if outputsList.length = 1 then Except.error "TypeError: Symbol object is not iterable"
      else
        let sens := withSignal ++ "\nbegin\n\n    -- Combinational logic for next state and outputs\n    process (current_state" ++
          (if ¬ inputsList.isEmpty then ", " ++ String.intercalate ", " inputsList else "") ++
          ")\n    begin\n"
        let nextLines :=
          if numBits > 0 then
            String.join ((List.range numBits).map (fun i =>
              match eqnLookup nse (yName i) with
              | some e => "        next_state(" ++ toString i ++ ") <= " ++
                  sympy_expr_to_vhdl Y "current_state" e ++ ";\n"
              | none => "        next_state(" ++ toString i ++
                  ") <= '0'; -- Default/missing equation for Y_next" ++ toString i ++ "\n"))
          else "        -- No next state logic (0 state bits).\n"
        let outLogic :=
          if ¬ outputsList.isEmpty then
            String.join (outputsList.map (fun nm =>
              match eqnLookup oe nm with
              | some e => "        " ++ nm ++ " <= " ++ sympy_expr_to_vhdl Y "current_state" e ++ ";\n"
              | none => "        " ++ nm ++ " <= '0'; -- Default/missing equation for " ++ nm ++ "\n"))
          else "        -- No output logic defined.\n"
        let tail1 := "\n    end process;\n\n    -- State Register (Sequential logic)\n    process (clk, reset)\n    begin\n        if reset = '1' then\n"
        let resetLine :=
          if numBits > 0 then "            current_state <= \"" ++ resetCode ++ "\"; -- Reset state\n"
          else "            -- No state register to reset.\n"
        let updLine :=
          if numBits > 0 then "            current_state <= next_state;\n"
          else "            -- No state register to update.\n"
        Except.ok (sens ++ "\n        -- Next State Logic\n" ++ nextLines ++
          "\n        -- Output Logic\n" ++ outLogic ++ tail1 ++ resetLine ++
          "        elsif rising_edge(clk) then\n" ++ updLine ++
          "        end if;\n    end process;\n\nend architecture Behavioral;\n")

/-! ### The raw document and `parser.parse_drawflow_data`

The incoming request body is arbitrary JSON; `parse_drawflow_data`
navigates it with `dict.get`, which raises `AttributeError` when the
receiver is not a dict.  The embedding keeps that: `jGet` is the raising
`get`, and the parser runs in `Except`. -/

inductive JVal where
  | null
  | jb (b : Bool)
  | jn (n : Int)
  | js (s : String)
  | jarr (xs : List JVal)
  | jobj (fields : List (String × JVal))

mutual

/-- Python `repr` of a JSON-shaped value (the rendering of nested
containers only matters for the id-mismatch comparison, where it can
never equal a dictionary key produced by the editor). -/
def pyRepr : JVal → String
  | .null => "None"
  | .jb true => "True"
  | .jb false => "False"
  | .jn n => toString n
  | .js s => "'" ++ s ++ "'"
  | .jarr xs => "[" ++ String.intercalate ", " (pyReprList xs) ++ "]"
  | .jobj fs => "\x7b" ++ String.intercalate ", " (pyReprFields fs) ++ "\x7d"

/-- The renderings of an array's elements. -/
def pyReprList : List JVal → List String
  | [] => []
  | x :: xs => pyRepr x :: pyReprList xs

/-- The renderings of an object's fields. -/
def pyReprFields : List (String × JVal) → List String
  | [] => []
  | (k, v) :: fs => ("'" ++ k ++ "': " ++ pyRepr v) :: pyReprFields fs

end

/-- Python `str` of a JSON-shaped value. -/
def pyStr : JVal → String
  | .js s => s
  | v => pyRepr v

/-- The Python type name, for the `AttributeError` message. -/
def pyTypeName : JVal → String
  | .null => "NoneType"
  | .jb _ => "bool"
  | .jn _ => "int"
  | .js _ => "str"
  | .jarr _ => "list"
  | .jobj _ => "dict"

/-- Lookup in a JSON object's field list (later duplicate keys win, as in
`json.loads`). -/
def objGet (fs : List (String × JVal)) (k : String) (dflt : JVal) : JVal :=
  match (fs.filter (fun p => p.1 = k)).getLast? with
  | some p => p.2
  | none => dflt

/-- `v.get(k, dflt)`: raises `AttributeError` unless `v` is a dict. -/
def jGet (v : JVal) (k : String) (dflt : JVal) : Except String JVal :=
  match v with
  | .jobj fs => Except.ok (objGet fs k dflt)
  | w => Except.error ("AttributeError: " ++ pyTypeName w ++ " object has no attribute get")

/-- `k in v` for a JSON object. -/
def hasKey (fs : List (String × JVal)) (k : String) : Bool :=
  fs.any (fun p => p.1 = k)

/-- A node record as `parse_drawflow_data` builds it: the raw field
values, plus the extracted `data.data` text blob. -/
structure PNode where
  id : JVal
  type : JVal
  inputs : JVal
  outputs : JVal
  node_data : JVal

/-- The loop of `parse_drawflow_data` over the entries of the node
collection: an entry that is not a dict or misses a required key is
skipped, an entry whose stringified id differs from its key is skipped,
and for a kept entry the text blob is `node_obj.get('data', {}).get('data',
'')` — whose second `get` raises when the `data` field is not a dict. -/
def parseEntries : List (String × JVal) → Except String (List PNode)
  | [] => Except.ok []
  | (key, v) :: rest =>
    match v with
    | .jobj fs =>
      if hasKey fs "id" && hasKey fs "name" && hasKey fs "inputs" && hasKey fs "outputs" && hasKey fs "data" then
        if pyStr (objGet fs "id" .null) ≠ key then parseEntries rest
        else do
          let inner ← jGet (objGet fs "data" (.jobj [])) "data" (.js "")
          let restN ← parseEntries rest
          Except.ok (⟨objGet fs "id" .null, objGet fs "name" .null,
            objGet fs "inputs" (.jobj []), objGet fs "outputs" (.jobj []), inner⟩ :: restN)
      else parseEntries rest
    | _ => parseEntries rest

/-- `parse_drawflow_data`: descend `drawflow → Home → data` with `get`
(raising on a non-dict receiver along the way), return the empty list when
the final subtree is not a dict, then filter the entries. -/
def parse_drawflow_data (doc : JVal) : Except String (List PNode) := do
  let a ← jGet doc "drawflow" (.jobj [])
  let b ← jGet a "Home" (.jobj [])
  let c ← jGet b "data" (.jobj [])
  match c with
  | .jobj entries => parseEntries entries
  | _ => Except.ok []

/-! ### The pipeline of `main.py` and the scenario graphs -/

/-- The processing chain of `save_drawflow_data` from the filtered node
list to the VHDL text: path enumeration, annotation, table elements,
state codes, equations, minimization, emission (entity name `test`,
VHDL output ports = flattened Moore names ++ event names). -/
def compileFsm (nodes : List Node) : Except String String :=
  let link := find_link_paths nodes
  let paths := get_formatted_details_for_all_paths link nodes
  let t := prepare_table_elements nodes
  let codes := assign_state_codes t.1
  let eq := generate_boolean_equations paths codes t.2.1 t.2.2.1 t.2.2.2
  let snse := simplify_equations eq.1
  let soe := simplify_equations eq.2
  let total := (t.2.2.2.map (fun p => p.2)).flatten ++ t.2.2.1
  generate_vhdl "test" t.2.1 total codes snse soe

/-- Scenario S2 of the spec: states `S0` (id 1), `S1` (id 2), `S2` (id 3)
and a Decision (id 4) on input `x` whose `output_1` leads to `S1` and
`output_2` to `S2`.  Output-side connection records carry no `input` key;
input-side ones name the originating port. -/
def s2nodes : List Node :=
  [⟨some 1, some "state", [], [("output_1", [⟨some "4", none⟩])], ""⟩,
   ⟨some 2, some "state", [("input_1", [⟨some "4", some "output_1"⟩])], [("output_1", [])], ""⟩,
   ⟨some 3, some "state", [("input_1", [⟨some "4", some "output_2"⟩])], [("output_1", [])], ""⟩,
   ⟨some 4, some "decision", [("input_1", [⟨some "1", some "output_1"⟩])],
     [("output_1", [⟨some "2", none⟩]), ("output_2", [⟨some "3", none⟩])], "x"⟩]

/-- Scenario S1 of the spec: states `A` (id 1) and `B` (id 2), an Event
node `tick` (id 3) from A to B and another Event node `tick` (id 4) from
B to A. -/
def s1nodes : List Node :=
  [⟨some 1, some "state", [("input_1", [⟨some "4", some "output_1"⟩])],
     [("output_1", [⟨some "3", none⟩])], ""⟩,
   ⟨some 2, some "state", [("input_1", [⟨some "3", some "output_1"⟩])],
     [("output_1", [⟨some "4", none⟩])], ""⟩,
   ⟨some 3, some "event", [("input_1", [⟨some "1", some "output_1"⟩])],
     [("output_1", [⟨some "2", none⟩])], "tick"⟩,
   ⟨some 4, some "event", [("input_1", [⟨some "2", some "output_1"⟩])],
     [("output_1", [⟨some "1", none⟩])], "tick"⟩]

/-- Whether an emission result is a success whose text holds `pat`. -/
def vhdlContains (r : Except String String) (pat : String) : Bool :=
  match r with
  | .ok v => strContains v pat
  | .error _ => false

/-- A well-shaped document whose single node entry stores a string (not a
dict) under its `data` key. -/
def badDoc : JVal :=
  .jobj [("drawflow", .jobj [("Home", .jobj [("data", .jobj
    [("1", .jobj [("id", .jn 1), ("name", .js "state"), ("inputs", .jobj []),
      ("outputs", .jobj []), ("data", .js "oops")])])])])]

/-- A one-state graph whose state node links back to itself. -/
def loopNodes : List Node :=
  [⟨some 1, some "state", [("input_1", [⟨some "1", some "output_1"⟩])],
     [("output_1", [⟨some "1", none⟩])], ""⟩]

/-- Well-formedness of one link path per the spec: length at least 2,
`state` endpoints, no `state` id and no repetition among the interior
ids. -/
def WFPath (nodes : List Node) (p : List String) : Prop :=
  2 ≤ p.length ∧
  (∀ a, p.head? = some a → isStateId nodes a = true) ∧
  (∀ b, p.getLast? = some b → isStateId nodes b = true) ∧
  (∀ x ∈ (p.drop 1).dropLast, isStateId nodes x = false) ∧
  ((p.drop 1).dropLast).Nodup

/-- Invariant of a DFS branch: the current path starts at a `state` id
that does not reappear, its later ids are distinct non-`state` ids, and
the visited set holds exactly the ids of the current path. -/
def BranchInv (nodes : List Node) (cp vis : List String) : Prop :=
  cp ≠ [] ∧
  (∀ a, cp.head? = some a → isStateId nodes a = true ∧ a ∉ cp.drop 1) ∧
  (∀ x ∈ cp.drop 1, isStateId nodes x = false) ∧
  (cp.drop 1).Nodup ∧
  (∀ x, x ∈ vis ↔ x ∈ cp)

/-- One hop of the node graph: node `a` has some output-port connection
whose (non-empty) target id is `b`. -/
def EdgeStep (nodes : List Node) (a b : String) : Prop :=
  b ≠ "" ∧ ∃ n port conns c, lookupNode nodes a = some n ∧ (port, conns) ∈ n.outputs ∧
    c ∈ conns ∧ c.node = some b

/-- The number of map keys not yet on the branch: the DFS measure. -/
def countRemaining (nodes : List Node) (vis : List String) : Nat :=
  ((mapKeys nodes).filter (fun k => decide (k ∉ vis))).length

/-- Soundness contract for the recursive call captured in `rec`: results
of a recursive DFS call on an unvisited non-`state` node of the map hold
only well-formed paths. -/
def RecSound (nodes : List Node) (rec : String → List String → Option DfsRes)
    (cp vis : List String) : Prop :=
  ∀ tid r, (lookupNode nodes tid).isSome → isStateId nodes tid = false → tid ∉ vis →
    rec tid (cp ++ [tid]) = some r → ∀ q ∈ r.1, WFPath nodes q

/-- Totality contract for the recursive call captured in `rec`. -/
def RecTotal (nodes : List Node) (rec : String → List String → Option DfsRes)
    (cp vis : List String) : Prop :=
  ∀ tid, (lookupNode nodes tid).isSome → tid ∉ vis → (rec tid (cp ++ [tid])).isSome

/-- The shape of every cycle diagnostic: its last id is not a `state`
id. -/
def DiagLast (nodes : List Node) (d : List String) : Prop :=
  ∀ x, d.getLast? = some x → isStateId nodes x = false

/-- Diagnostic-shape contract for the recursive call captured in `rec`. -/
def RecDiag (nodes : List Node) (rec : String → List String → Option DfsRes)
    (cp vis : List String) : Prop :=
  ∀ tid r, (lookupNode nodes tid).isSome → isStateId nodes tid = false → tid ∉ vis →
    rec tid (cp ++ [tid]) = some r → ∀ d ∈ r.2, DiagLast nodes d

/-- The indicator contract of one annotated path: the first step's
indicator is `none`; a later step whose node has at most one `input_1`
connection from the path predecessor gets `true` exactly when that
connection names port `output_1`, `false` exactly when it names
`output_2`, and `none` otherwise — with no reference to the predecessor's
node type. -/
def IndicatorSpec (nodes : List Node) (p : List String) (steps : List (Option FNode)) : Prop :=
  (∀ s0, steps.get? 0 = some (some s0) → s0.indicator = none) ∧
  (∀ (k : Nat) (prev cur : String) (nk : Node) (sk : FNode),
    p.get? k = some prev → p.get? (k + 1) = some cur →
    lookupNode nodes cur = some nk →
    (portConns nk.inputs "input_1").countP (fun c => connNodeStr c = prev) ≤ 1 →
    steps.get? (k + 1) = some (some sk) →
    ((sk.indicator = some true ↔
        ∃ c ∈ portConns nk.inputs "input_1", connNodeStr c = prev ∧ c.input = some "output_1") ∧
     (sk.indicator = some false ↔
        ∃ c ∈ portConns nk.inputs "input_1", connNodeStr c = prev ∧ c.input = some "output_2") ∧
     (sk.indicator = none ↔
        ∀ c ∈ portConns nk.inputs "input_1", connNodeStr c = prev →
          c.input ≠ some "output_1" ∧ c.input ≠ some "output_2")))

/-! ## Theorems -/

/-- A list with at most one element satisfying `q` finds any member that
satisfies `q`. -/
theorem find?_eq_of_countP_le_one {α : Type} (q : α → Bool) :
    ∀ (l : List α) (c : α), l.countP q ≤ 1 → c ∈ l → q c = true →
      l.find? q = some c := by
  intro l
  induction l with
  | nil => intro c h hc hq; simp at hc
  | cons x xs ih =>
    intro c h hc hq
    rcases List.mem_cons.1 hc with rfl | hmem
    · exact List.find?_cons_of_pos _ hq
    · by_cases hx : q x = true
      · exfalso
        have h1 : 0 < xs.countP q := List.countP_pos_iff.2 ⟨c, hmem, hq⟩
        rw [List.countP_cons_of_pos _ _ hx] at h
        omega
      · rw [List.find?_cons_of_neg _ hx]
        rw [List.countP_cons_of_neg _ _ (by simpa using hx)] at h
        exact ih c h hmem hq

/-- Indexing an annotated path at a successor position yields the step
formed from the id there with the id before it as predecessor. -/
theorem formatPath_get?_succ (nodes : List Node) :
    ∀ (p : List String) (pr : Option String) (k : Nat),
      (formatPath nodes pr p).get? (k + 1) =
        match p.get? k, p.get? (k + 1) with
        | some prev, some cur => some (formatOne nodes (some prev) cur)
        | _, _ => none := by
  intro p
  induction p with
  | nil => intro pr k; simp [formatPath]
  | cons x xs ih =>
    intro pr k
    cases k with
    | zero =>
      cases xs with
      | nil => simp [formatPath]
      | cons y ys => simp [formatPath]
    | succ k =>
      simpa [formatPath] using ih (some x) k

/-- The annotated entry that `get_formatted_details_for_all_paths` stores
for the path at index `i` is `formatPath` of that path. -/
theorem get_formatted_get? (all_paths : List (List String)) (nodes : List Node)
    (i : Nat) (p : List String) (steps : List (Option FNode))
    (hp : all_paths.get? i = some p)
    (hs : (get_formatted_details_for_all_paths all_paths nodes).get? i = some (some steps)) :
    steps = formatPath nodes none p := by
  unfold get_formatted_details_for_all_paths at hs
  split_ifs at hs <;> simp_all [List.get?_eq_getElem?, List.getElem?_map]

/-- The indicator as computed from the first matching connection. -/
theorem stepIndicator_some_eq (node : Node) (prev : String) :
    stepIndicator node (some prev) =
      match (portConns node.inputs "input_1").find? (fun c => connNodeStr c = prev) with
      | some c => if c.input = some "output_1" then some true
                  else if c.input = some "output_2" then some false else none
      | none => none := rfl

/-- C6 (amended): in every annotated path the first step's indicator is
`none`; a later step whose node has at most one `input_1` connection
coming from the path predecessor has indicator `true` exactly when that
connection names port `output_1`, `false` exactly when it names
`output_2`, and `none` otherwise — regardless of the predecessor's node
type. -/
theorem indicator_spec (all_paths : List (List String)) (nodes : List Node)
    (i : Nat) (p : List String) (steps : List (Option FNode))
    (hp : all_paths.get? i = some p)
    (hs : (get_formatted_details_for_all_paths all_paths nodes).get? i = some (some steps)) :
    IndicatorSpec nodes p steps := by
  have hsteps := get_formatted_get? all_paths nodes i p steps hp hs
  subst hsteps
  constructor
  · intro s0 h0
    cases p with
    | nil => simp [formatPath] at h0
    | cons x xs =>
      simp only [formatPath, List.get?_cons_zero] at h0
      unfold formatOne at h0
      rcases hl : lookupNode nodes x with _ | node
      · rw [hl] at h0; simp at h0
      · rw [hl] at h0
        simp only [Option.some.injEq] at h0
        rw [← h0]
        rfl
  · intro k prev cur nk sk hk hk1 hcur hcount hsk
    rw [formatPath_get?_succ nodes p none k, hk, hk1] at hsk
    simp only [Option.some.injEq] at hsk
    unfold formatOne at hsk
    rw [hcur] at hsk
    simp only [Option.some.injEq] at hsk
    have hind : sk.indicator = stepIndicator nk (some prev) := by rw [← hsk]
    rcases hf : (portConns nk.inputs "input_1").find? (fun c => connNodeStr c = prev) with _ | c0
    · replace hind : sk.indicator = none := by
        rw [hind, stepIndicator_some_eq, hf]
      have hnone := List.find?_eq_none.1 hf
      refine ⟨?_, ?_, ?_⟩
      · rw [hind]
        constructor
        · intro h; cases h
        · rintro ⟨c, hc, hcp, _⟩
          exact absurd (by simpa using hcp) (by simpa using hnone c hc)
      · rw [hind]
        constructor
        · intro h; cases h
        · rintro ⟨c, hc, hcp, _⟩
          exact absurd (by simpa using hcp) (by simpa using hnone c hc)
      · rw [hind]
        constructor
        · intro _ c hc hcp
          exact absurd (by simpa using hcp) (by simpa using hnone c hc)
        · intro _; rfl
    · replace hind : sk.indicator =
          (if c0.input = some "output_1" then some true
           else if c0.input = some "output_2" then some false else none) := by
        rw [hind, stepIndicator_some_eq, hf]
      have hmem := List.mem_of_find?_eq_some hf
      have hq : connNodeStr c0 = prev := by simpa using List.find?_some hf
      have huniq : ∀ c ∈ portConns nk.inputs "input_1", connNodeStr c = prev → c = c0 := by
        intro c hc hcp
        have h5 := find?_eq_of_countP_le_one (fun c => connNodeStr c = prev)
          (portConns nk.inputs "input_1") c hcount hc (by simpa using hcp)
        rw [hf] at h5
        exact (Option.some.inj h5).symm
      by_cases h1 : c0.input = some "output_1"
      · rw [if_pos h1] at hind
        refine ⟨?_, ?_, ?_⟩
        · rw [hind]
          exact ⟨fun _ => ⟨c0, hmem, hq, h1⟩, fun _ => rfl⟩
        · rw [hind]
          constructor
          · intro h; cases h
          · rintro ⟨c, hc, hcp, h2⟩
            rw [huniq c hc hcp] at h2
            exact absurd (h1.symm.trans h2) (by decide)
        · rw [hind]
          constructor
          · intro h; cases h
          · intro hall
            exact absurd h1 (hall c0 hmem hq).1
      · rw [if_neg h1] at hind
        by_cases h2 : c0.input = some "output_2"
        · rw [if_pos h2] at hind
          refine ⟨?_, ?_, ?_⟩
          · rw [hind]
            constructor
            · intro h; cases h
            · rintro ⟨c, hc, hcp, hx⟩
              rw [huniq c hc hcp] at hx
              exact absurd hx h1
          · rw [hind]
            exact ⟨fun _ => ⟨c0, hmem, hq, h2⟩, fun _ => rfl⟩
          · rw [hind]
            constructor
            · intro h; cases h
            · intro hall
              exact absurd h2 (hall c0 hmem hq).2
        · rw [if_neg h2] at hind
          refine ⟨?_, ?_, ?_⟩
          · rw [hind]
            constructor
            · intro h; cases h
            · rintro ⟨c, hc, hcp, hx⟩
              rw [huniq c hc hcp] at hx
              exact absurd hx h1
          · rw [hind]
            constructor
            · intro h; cases h
            · rintro ⟨c, hc, hcp, hx⟩
              rw [huniq c hc hcp] at hx
              exact absurd hx h2
          · rw [hind]
            refine ⟨fun _ c hc hcp => ?_, fun _ => rfl⟩
            rw [huniq c hc hcp]
            exact ⟨h1, h2⟩

/-- C6 witness: the contract instantiated on the annotated S2 path
`S0 → Decision → S1`. -/
theorem indicator_spec_witness :
    IndicatorSpec s2nodes ["1", "4", "2"] (formatPath s2nodes none ["1", "4", "2"]) :=
  indicator_spec [["1", "4", "2"]] s2nodes 0 ["1", "4", "2"]
    (formatPath s2nodes none ["1", "4", "2"]) rfl rfl

/-- C9: `sympy_expr_to_vhdl` is total — every expression, including the
constants, connectives, symbols and objects of unexpected type, renders to
a string — and an unexpected object yields the quoted placeholder that
names its type. -/
theorem sympy_expr_to_vhdl_total :
    ∀ (sv : List String) (sig : String),
      (∀ e : BExpr, ∃ s : String, sympy_expr_to_vhdl sv sig e = s) ∧
      (∀ t : String, sympy_expr_to_vhdl sv sig (BExpr.unexpected t) =
        "'UNEXPECTED_EXPR_" ++ t ++ "'") := by
  intro sv sig
  exact ⟨fun e => ⟨_, rfl⟩, fun t => rfl⟩

/-- C4: on the S1 two-state toggle the pipeline raises before emitting any
VHDL: `generate_vhdl` builds `outputs_sym_map` by iterating
`sympy.symbols(','.join(outputs_list))`, and with the single output
`tick` that is one non-iterable `Symbol`. -/
theorem s1_pipeline_raises :
    compileFsm s1nodes = Except.error "TypeError: Symbol object is not iterable" := by
  rfl

/-- C5: `parse_drawflow_data` raises on a document whose node entry stores
a string under `data`: the inner `node_obj.get('data', {}).get('data',
'')` calls `get` on that string. -/
theorem parse_drawflow_raises :
    parse_drawflow_data badDoc =
      Except.error "AttributeError: str object has no attribute get" := by
  rfl

/-- C8: with no input and no output ports the port list keeps the
semicolon after the `reset` port, immediately before the closing
parenthesis. -/
theorem portlist_trailing_semicolon :
    vhdlContains (generate_vhdl "test" [] [] [(1, "0")] [("Y0", BExpr.fls)] [])
      "std_logic;\n    );" = true := by
  rfl

/-- C2 counterexample: for the S2 graph neither VHDL assignment the claim
quotes occurs in the emitted text (the emission succeeds, but the source
maps `Y0` to the leftmost code character, renders conjunction operands
with their own parentheses, and orders them canonically). -/
theorem s2_claimed_vhdl_absent :
    vhdlContains (compileFsm s2nodes)
        "next_state(0) <= ((not current_state(1)) and (not current_state(0)) and x)" = false ∧
    vhdlContains (compileFsm s2nodes)
        "next_state(1) <= ((not current_state(1)) and (not current_state(0)) and (not x))" = false ∧
    (compileFsm s2nodes).isOk = true := by
  exact ⟨rfl, rfl, rfl⟩

/-- C2 (amended): the pipeline assigns codes S0=00, S1=01, S2=10, and the
emitted VHDL contains the two next-state assignments the source actually
produces: bit 0 follows the leftmost code character, so it is set on the
branch to S2 (`not x`), bit 1 on the branch to S1 (`x`). -/
theorem s2_codes_and_vhdl :
    assign_state_codes (prepare_table_elements s2nodes).1 = [(1, "00"), (2, "01"), (3, "10")] ∧
    vhdlContains (compileFsm s2nodes)
        "next_state(0) <= ((not current_state(0))) and ((not current_state(1))) and ((not x));" = true ∧
    vhdlContains (compileFsm s2nodes)
        "next_state(1) <= (x) and ((not current_state(0))) and ((not current_state(1)));" = true := by
  exact ⟨rfl, rfl, rfl⟩

/-- C3 counterexample: with an empty annotated-path list the function
takes its early return and hands back two empty maps, so not a single
output symbol is bound — `led` in particular has no equation — although
the Moore table is non-empty and the state codes are known. -/
theorem moore_claim_fails :
    generate_boolean_equations [] [(1, "0")] [] [] [(1, ["led"])] = ([], []) ∧
    eqnLookup (generate_boolean_equations [] [(1, "0")] [] [] [(1, ["led"])]).2 "led"
      = none := by
  exact ⟨rfl, rfl⟩

/-- C6 counterexample: in the annotated S1 path `A → tick → B` the steps
reached through port `output_1` get indicator `True` although their
predecessors are a state and an event, not a Decision. -/
theorem indicator_nondecision_cex :
    get_formatted_details_for_all_paths [["1", "3", "2"]] s1nodes =
      [some [some ⟨some 1, "", some "state", none⟩,
             some ⟨some 3, "tick", some "event", some true⟩,
             some ⟨some 2, "", some "state", some true⟩]] ∧
    (lookupNode s1nodes "3").map Node.type = some (some "event") := by
  exact ⟨rfl, rfl⟩

/-- The last element (when present) of a list is a member. -/
theorem lastMem {α : Type} : ∀ (l : List α) (a : α), l.getLast? = some a → a ∈ l
  | [], _, h => by simp at h
  | [x], a, h => by
    simp [List.getLast?] at h
    simp [h]
  | x :: y :: rest, a, h => by
    rw [List.getLast?_cons_cons] at h
    exact List.mem_cons_of_mem x (lastMem (y :: rest) a h)

/-- A successful node lookup certifies membership of the key in the node
map. -/
theorem lookupNode_mem_keys (nodes : List Node) (k : String) (n : Node)
    (h : lookupNode nodes k = some n) : k ∈ mapKeys nodes := by
  unfold lookupNode at h
  have hm := lastMem _ _ h
  rw [List.mem_filter] at hm
  obtain ⟨hn, hs⟩ := hm
  exact List.mem_filterMap.mpr ⟨n, hn, by simpa using hs⟩

/-- Conversely, a key of the node map has a successful lookup. -/
theorem lookupNode_isSome_of_mem (nodes : List Node) (k : String)
    (h : k ∈ mapKeys nodes) : (lookupNode nodes k).isSome := by
  obtain ⟨n, hn, hs⟩ := List.mem_filterMap.mp h
  unfold lookupNode
  rw [Option.isSome_iff_ne_none, ne_eq, List.getLast?_eq_none_iff]
  intro hnil
  have : n ∈ nodes.filter (fun m => strId m = some k) :=
    List.mem_filter.mpr ⟨hn, by simp [hs]⟩
  rw [hnil] at this
  simp at this

/-- `isStateId` characterised through the node lookup. -/
theorem isStateId_iff (nodes : List Node) (k : String) :
    isStateId nodes k = true ↔ ∃ n, lookupNode nodes k = some n ∧ n.type = some "state" := by
  unfold isStateId
  cases h : lookupNode nodes k with
  | none => simp
  | some n => simp [h]

/-- With duplicate-free map keys, the node carrying a key is what the
lookup returns. -/
theorem lookupNode_of_nodup (s : String) :
    ∀ (nodes : List Node), (mapKeys nodes).Nodup →
    ∀ (n : Node), n ∈ nodes → strId n = some s → lookupNode nodes s = some n := by
  intro nodes
  induction nodes with
  | nil => intro _ n hn; simp at hn
  | cons m rest ih =>
    intro hnd n hn hs
    cases hm : strId m with
    | none =>
      have hnd' : (mapKeys rest).Nodup := by
        rw [mapKeys, List.filterMap_cons, hm] at hnd
        exact hnd
      have hnm : n ≠ m := by
        intro he; rw [he, hm] at hs; cases hs
      have hn' : n ∈ rest := by
        rcases List.mem_cons.mp hn with h | h
        · exact absurd h hnm
        · exact h
      rw [lookupNode, List.filter_cons]
      have : (decide (strId m = some s)) = false := by simp [hm]
      rw [this]
      exact ih hnd' n hn' hs
    | some t =>
      have hnd2 : t ∉ mapKeys rest ∧ (mapKeys rest).Nodup := by
        rw [mapKeys, List.filterMap_cons, hm] at hnd
        exact ⟨(List.nodup_cons.mp hnd).1, (List.nodup_cons.mp hnd).2⟩
      rcases List.mem_cons.mp hn with h | h
      · subst h
        have hts : t = s := by rw [hm] at hs; injection hs
        subst hts
        rw [lookupNode, List.filter_cons]
        have : (decide (strId n = some t)) = true := by simp [hm]
        rw [this]
        have hrest : rest.filter (fun x => strId x = some t) = [] := by
          rw [List.filter_eq_nil_iff]
          intro x hx hpx
          exact hnd2.1 (List.mem_filterMap.mpr ⟨x, hx, by simpa using hpx⟩)
        rw [hrest]
        rfl
      · have hst : s ∈ mapKeys rest := List.mem_filterMap.mpr ⟨n, h, hs⟩
        have hts : t ≠ s := fun he => hnd2.1 (he ▸ hst)
        rw [lookupNode, List.filter_cons]
        have : (decide (strId m = some s)) = false := by simp [hm, hts]
        rw [this]
        exact ih hnd2.2 n h hs

/-- With duplicate-free keys every seed of `start_node_ids` is a `state`
id. -/
theorem start_node_ids_state (nodes : List Node) (hnd : (mapKeys nodes).Nodup)
    (s : String) (hs : s ∈ start_node_ids nodes) : isStateId nodes s = true := by
  rw [start_node_ids] at hs
  obtain ⟨n, hn, he⟩ := List.mem_filterMap.mp hs
  cases hsi : strId n with
  | none => simp [hsi] at he
  | some t =>
    simp only [hsi] at he
    by_cases ht : n.type = some "state"
    · rw [if_pos ht] at he
      injection he with he
      rw [← he]
      exact (isStateId_iff nodes t).mpr ⟨n, lookupNode_of_nodup t nodes hnd n hn hsi, ht⟩
    · rw [if_neg ht] at he
      cases he

/-- Every seed of `start_node_ids` is a key of the node map. -/
theorem start_node_ids_sub (nodes : List Node) (s : String)
    (hs : s ∈ start_node_ids nodes) : s ∈ mapKeys nodes := by
  rw [start_node_ids] at hs
  obtain ⟨n, hn, he⟩ := List.mem_filterMap.mp hs
  cases hsi : strId n with
  | none => simp [hsi] at he
  | some t =>
    simp only [hsi] at he
    by_cases ht : n.type = some "state"
    · rw [if_pos ht] at he
      injection he with he
      rw [← he]
      exact List.mem_filterMap.mpr ⟨n, hn, hsi⟩
    · rw [if_neg ht] at he
      cases he

/-- Appending a `state` target to a DFS branch yields a well-formed
path. -/
theorem wfPath_emit (nodes : List Node) (cp vis : List String) (tid : String)
    (hInv : BranchInv nodes cp vis) (ht : isStateId nodes tid = true) :
    WFPath nodes (cp ++ [tid]) := by
  obtain ⟨hne, hhead, hmid, hnd, _⟩ := hInv
  obtain ⟨a, rest, rfl⟩ := List.exists_cons_of_ne_nil hne
  have hd1 : (a :: rest).drop 1 = rest := rfl
  rw [hd1] at hmid hnd
  obtain ⟨ha, _⟩ := hhead a rfl
  refine ⟨by simp, ?_, ?_, ?_, ?_⟩
  · intro x hx
    injection hx with hx
    rw [← hx]
    exact ha
  · intro b hb
    rw [List.getLast?_concat] at hb
    injection hb with hb
    rw [← hb]
    exact ht
  · intro x hx
    have hint : (((a :: rest) ++ [tid]).drop 1).dropLast = rest := by
      rw [List.cons_append, List.drop_succ_cons, List.drop_zero, List.dropLast_concat]
    rw [hint] at hx
    exact hmid x hx
  · have hint : (((a :: rest) ++ [tid]).drop 1).dropLast = rest := by
      rw [List.cons_append, List.drop_succ_cons, List.drop_zero, List.dropLast_concat]
    rw [hint]
    exact hnd

/-- Stepping a DFS branch to an unvisited non-`state` node preserves the
branch invariant. -/
theorem branchInv_extend (nodes : List Node) (cp vis : List String) (tid : String)
    (hInv : BranchInv nodes cp vis) (hns : isStateId nodes tid = false) (hni : tid ∉ vis) :
    BranchInv nodes (cp ++ [tid]) (vis.insert tid) := by
  obtain ⟨hne, hhead, hmid, hnd, hvis⟩ := hInv
  obtain ⟨a, rest, rfl⟩ := List.exists_cons_of_ne_nil hne
  have hd1 : (a :: rest).drop 1 = rest := rfl
  rw [hd1] at hmid hnd
  have htc : tid ∉ (a :: rest) := fun hm => hni ((hvis tid).mpr hm)
  have hdrop : ((a :: rest) ++ [tid]).drop 1 = rest ++ [tid] := by
    rw [List.cons_append, List.drop_succ_cons, List.drop_zero]
  refine ⟨by simp, ?_, ?_, ?_, ?_⟩
  · intro x hx
    injection hx with hx
    obtain ⟨ha1, ha2⟩ := hhead a rfl
    rw [hd1] at ha2
    rw [← hx]
    refine ⟨ha1, ?_⟩
    rw [hdrop]
    intro hmem
    rcases List.mem_append.mp hmem with h | h
    · exact ha2 h
    · rw [List.mem_singleton] at h
      exact htc (h ▸ List.mem_cons_self a rest)
  · intro x hx
    rw [hdrop] at hx
    rcases List.mem_append.mp hx with h | h
    · exact hmid x h
    · rw [List.mem_singleton] at h
      rw [h]
      exact hns
  · rw [hdrop]
    have htr : tid ∉ rest := fun h => htc (List.mem_cons_of_mem a h)
    exact List.Nodup.append hnd (List.nodup_singleton tid)
      (by rw [List.disjoint_singleton]; exact htr)
  · intro x
    rw [List.mem_insert_iff, hvis x, List.mem_append, List.mem_singleton, or_comm]

/-- Soundness of one DFS connection step: under the branch invariant and
a sound recursive call, every collected path is well-formed. -/
theorem dfs_edge_paths_sound (nodes : List Node) (rec : String → List String → Option DfsRes)
    (c : Conn) (cp vis : List String) (res : DfsRes)
    (hInv : BranchInv nodes cp vis) (hrec : RecSound nodes rec cp vis)
    (h : dfs_edge nodes rec c cp vis = some res) :
    ∀ q ∈ res.1, WFPath nodes q := by
  cases hc : c.node with
  | none =>
    rw [dfs_edge, hc] at h
    injection h with h
    rw [← h]
    intro q hq
    simp at hq
  | some tid =>
    simp only [dfs_edge, hc] at h
    by_cases he : tid = ""
    · rw [if_pos he] at h
      injection h with h
      rw [← h]
      intro q hq
      simp at hq
    · rw [if_neg he] at h
      cases hl : lookupNode nodes tid with
      | none =>
        simp only [hl] at h
        injection h with h
        rw [← h]
        intro q hq
        simp at hq
      | some tnode =>
        simp only [hl] at h
        by_cases hs : tnode.type = some "state"
        · rw [if_pos hs] at h
          injection h with h
          rw [← h]
          intro q hq
          rw [List.mem_singleton] at hq
          rw [hq]
          exact wfPath_emit nodes cp vis tid hInv ((isStateId_iff nodes tid).mpr ⟨tnode, hl, hs⟩)
        · rw [if_neg hs] at h
          by_cases hv : tid ∈ vis
          · rw [if_pos hv] at h
            injection h with h
            rw [← h]
            intro q hq
            simp at hq
          · rw [if_neg hv] at h
            have hns : isStateId nodes tid = false := by
              simp [isStateId, hl, hs]
            exact hrec tid res (by rw [hl]; rfl) hns hv h

/-- Soundness of the DFS loop over one port's connections. -/
theorem dfs_conns_paths_sound (nodes : List Node) (rec : String → List String → Option DfsRes)
    (cp vis : List String) (hInv : BranchInv nodes cp vis) (hrec : RecSound nodes rec cp vis) :
    ∀ (conns : List Conn) (res : DfsRes), dfs_conns nodes rec conns cp vis = some res →
    ∀ q ∈ res.1, WFPath nodes q := by
  intro conns
  induction conns with
  | nil =>
    intro res h
    injection h with h
    rw [← h]
    intro q hq
    simp at hq
  | cons c rest ih =>
    intro res h
    rw [dfs_conns] at h
    rw [Option.bind_eq_bind, Option.bind_eq_some] at h
    obtain ⟨r₁, h1, h⟩ := h
    rw [Option.bind_eq_some] at h
    obtain ⟨r₂, h2, h⟩ := h
    injection h with h
    rw [← h]
    intro q hq
    rcases List.mem_append.mp hq with hq | hq
    · exact dfs_edge_paths_sound nodes rec c cp vis r₁ hInv hrec h1 q hq
    · exact ih r₂ h2 q hq

/-- Soundness of the DFS loop over a node's output ports. -/
theorem dfs_ports_paths_sound (nodes : List Node) (rec : String → List String → Option DfsRes)
    (cp vis : List String) (hInv : BranchInv nodes cp vis) (hrec : RecSound nodes rec cp vis) :
    ∀ (ports : List (String × List Conn)) (res : DfsRes),
    dfs_ports nodes rec ports cp vis = some res →
    ∀ q ∈ res.1, WFPath nodes q := by
  intro ports
  induction ports with
  | nil =>
    intro res h
    injection h with h
    rw [← h]
    intro q hq
    simp at hq
  | cons pc rest ih =>
    intro res h
    rcases pc with ⟨pname, conns⟩
    rw [dfs_ports] at h
    rw [Option.bind_eq_bind, Option.bind_eq_some] at h
    obtain ⟨r₁, h1, h⟩ := h
    rw [Option.bind_eq_some] at h
    obtain ⟨r₂, h2, h⟩ := h
    injection h with h
    rw [← h]
    intro q hq
    rcases List.mem_append.mp hq with hq | hq
    · exact dfs_conns_paths_sound nodes rec cp vis hInv hrec conns r₁ h1 q hq
    · exact ih r₂ h2 q hq

/-- Soundness of the fueled DFS at a node: when the visited set extended
with the current id satisfies the branch invariant, every collected path
is well-formed. -/
theorem dfs_node_paths_sound (nodes : List Node) :
    ∀ (fuel : Nat) (cid : String) (cp visited : List String) (res : DfsRes),
    BranchInv nodes cp (visited.insert cid) →
    dfs_node nodes fuel cid cp visited = some res →
    ∀ q ∈ res.1, WFPath nodes q := by
  intro fuel
  induction fuel with
  | zero =>
    intro cid cp visited res _ h
    simp [dfs_node] at h
  | succ fuel ih =>
    intro cid cp visited res hInv h
    cases hl : lookupNode nodes cid with
    | none =>
      simp only [dfs_node, hl] at h
      injection h with h
      rw [← h]
      intro q hq
      simp at hq
    | some node =>
      simp only [dfs_node, hl] at h
      by_cases ho : node.outputs.isEmpty = true
      · rw [if_pos ho] at h
        injection h with h
        rw [← h]
        intro q hq
        simp at hq
      · rw [if_neg ho] at h
        refine dfs_ports_paths_sound nodes _ cp (visited.insert cid) hInv ?_ node.outputs res h
        intro tid r hlk hns hnv hcall
        exact ih tid (cp ++ [tid]) (visited.insert cid) r
          (branchInv_extend nodes cp (visited.insert cid) tid hInv hns hnv) hcall

/-- Soundness of the seed loop: every collected path is well-formed. -/
theorem dfs_seeds_paths_sound (nodes : List Node) (fuel : Nat) :
    ∀ (ss : List String) (res : DfsRes),
    (∀ s ∈ ss, isStateId nodes s = true) →
    dfs_seeds nodes fuel ss = some res →
    ∀ q ∈ res.1, WFPath nodes q := by
  intro ss
  induction ss with
  | nil =>
    intro res _ h
    injection h with h
    rw [← h]
    intro q hq
    simp at hq
  | cons s rest ih =>
    intro res hst h
    rw [dfs_seeds] at h
    rw [Option.bind_eq_bind, Option.bind_eq_some] at h
    obtain ⟨r₁, h1, h⟩ := h
    rw [Option.bind_eq_some] at h
    obtain ⟨r₂, h2, h⟩ := h
    injection h with h
    rw [← h]
    intro q hq
    rcases List.mem_append.mp hq with hq | hq
    · refine dfs_node_paths_sound nodes fuel s [s] [] r₁ ?_ h1 q hq
      refine ⟨by simp, ?_, by simp, by simp, ?_⟩
      · intro a ha
        injection ha with ha
        rw [← ha]
        exact ⟨hst s (List.mem_cons_self s rest), by simp⟩
      · intro x
        simp [List.insert]
    · exact ih r₂ (fun t ht => hst t (List.mem_cons_of_mem s ht)) h2 q hq

/-- C1: every path returned by `find_link_paths` is well-formed — it has
length at least 2, its first and last ids denote `state` nodes, no
`state` id occurs at an interior position, and no intermediate id occurs
twice within the same path (stated for graphs whose stringified node ids
are duplicate-free, so that the seed states denote themselves in the node
map). -/
theorem find_link_paths_wellformed (nodes : List Node)
    (hnd : (mapKeys nodes).Nodup) :
    ∀ p ∈ find_link_paths nodes, WFPath nodes p := by
  intro p hp
  unfold find_link_paths find_link_paths_opt at hp
  by_cases h1 : nodes.isEmpty = true
  · rw [if_pos h1] at hp
    simp at hp
  · rw [if_neg h1] at hp
    by_cases h2 : (mapKeys nodes).isEmpty = true
    · rw [if_pos h2] at hp
      simp at hp
    · rw [if_neg h2] at hp
      by_cases h3 : (start_node_ids nodes).isEmpty = true
      · rw [if_pos h3] at hp
        simp at hp
      · rw [if_neg h3] at hp
        cases hd : dfs_seeds nodes (initial_fuel nodes) (start_node_ids nodes) with
        | none =>
          rw [hd] at hp
          simp at hp
        | some res =>
          rw [hd] at hp
          exact dfs_seeds_paths_sound nodes (initial_fuel nodes) (start_node_ids nodes) res
            (fun s hs => start_node_ids_state nodes hnd s hs) hd p hp

/-- Closed witness for C1 on the S2 scenario graph. -/
theorem find_link_paths_wellformed_witness :
    (mapKeys s2nodes).Nodup ∧ ∀ p ∈ find_link_paths s2nodes, WFPath s2nodes p :=
  ⟨by decide, find_link_paths_wellformed s2nodes (by decide)⟩

/-- Filtering with a stronger predicate keeps at most as many
elements. -/
theorem filter_len_le {α : Type} (p q : α → Bool) (himp : ∀ a, p a = true → q a = true) :
    ∀ (l : List α), (l.filter p).length ≤ (l.filter q).length := by
  intro l
  induction l with
  | nil => simp
  | cons x xs ih =>
    rw [List.filter_cons, List.filter_cons]
    by_cases hp : p x = true
    · rw [if_pos hp, if_pos (himp x hp)]
      simpa using ih
    · rw [if_neg hp]
      by_cases hq : q x = true
      · rw [if_pos hq]
        exact Nat.le_trans ih (by simp)
      · rw [if_neg hq]
        exact ih

/-- Filtering with a strictly stronger predicate, witnessed by one
member, keeps strictly fewer elements. -/
theorem filter_len_lt {α : Type} (p q : α → Bool) (himp : ∀ a, p a = true → q a = true) :
    ∀ (l : List α) (a : α), a ∈ l → p a = false → q a = true →
    (l.filter p).length < (l.filter q).length := by
  intro l
  induction l with
  | nil => intro a ha; simp at ha
  | cons x xs ih =>
    intro a ha hpa hqa
    rw [List.filter_cons, List.filter_cons]
    rcases List.mem_cons.mp ha with h | h
    · rw [h] at hpa hqa
      rw [if_neg (by rw [hpa]; simp), if_pos hqa]
      exact Nat.lt_succ_of_le (filter_len_le p q himp xs)
    · by_cases hp : p x = true
      · rw [if_pos hp, if_pos (himp x hp)]
        simpa using ih a h hpa hqa
      · rw [if_neg hp]
        by_cases hq : q x = true
        · rw [if_pos hq]
          exact Nat.lt_succ_of_lt (ih a h hpa hqa)
        · rw [if_neg hq]
          exact ih a h hpa hqa

/-- The DFS measure is positive while an unvisited map key remains. -/
theorem countRemaining_pos (nodes : List Node) (vis : List String) (cid : String)
    (hm : cid ∈ mapKeys nodes) (hv : cid ∉ vis) : 0 < countRemaining nodes vis := by
  have : cid ∈ (mapKeys nodes).filter (fun k => decide (k ∉ vis)) :=
    List.mem_filter.mpr ⟨hm, by simp [hv]⟩
  rw [countRemaining]
  exact List.length_pos.mpr (List.ne_nil_of_mem this)

/-- Visiting an unvisited map key strictly decreases the DFS measure. -/
theorem countRemaining_insert_lt (nodes : List Node) (vis : List String) (cid : String)
    (hm : cid ∈ mapKeys nodes) (hv : cid ∉ vis) :
    countRemaining nodes (vis.insert cid) < countRemaining nodes vis := by
  rw [countRemaining, countRemaining]
  refine filter_len_lt _ _ ?_ (mapKeys nodes) cid hm ?_ ?_
  · intro a ha
    simp only [decide_eq_true_eq] at ha ⊢
    intro hmem
    exact ha (List.mem_insert_iff.mpr (Or.inr hmem))
  · simp [List.mem_insert_iff]
  · simp [hv]

/-- With nothing visited the DFS measure is the number of map keys, below
the initial fuel. -/
theorem countRemaining_nil_le (nodes : List Node) :
    countRemaining nodes [] ≤ initial_fuel nodes := by
  rw [countRemaining, initial_fuel]
  have : (mapKeys nodes).filter (fun k => decide (k ∉ ([] : List String))) = mapKeys nodes := by
    rw [List.filter_eq_self]
    intro a _
    simp
  rw [this]
  exact Nat.le_succ _

/-- One DFS connection step never fails when the recursive call is
total. -/
theorem dfs_edge_total (nodes : List Node) (rec : String → List String → Option DfsRes)
    (c : Conn) (cp vis : List String) (hrec : RecTotal nodes rec cp vis) :
    (dfs_edge nodes rec c cp vis).isSome := by
  cases hc : c.node with
  | none => simp only [dfs_edge, hc]; rfl
  | some tid =>
    simp only [dfs_edge, hc]
    by_cases he : tid = ""
    · rw [if_pos he]; rfl
    · rw [if_neg he]
      cases hl : lookupNode nodes tid with
      | none => simp only [hl]; rfl
      | some tnode =>
        simp only [hl]
        by_cases hs : tnode.type = some "state"
        · rw [if_pos hs]; rfl
        · rw [if_neg hs]
          by_cases hv : tid ∈ vis
          · rw [if_pos hv]; rfl
          · rw [if_neg hv]
            exact hrec tid (by rw [hl]; rfl) hv

/-- The connection loop never fails when the recursive call is total. -/
theorem dfs_conns_total (nodes : List Node) (rec : String → List String → Option DfsRes)
    (cp vis : List String) (hrec : RecTotal nodes rec cp vis) :
    ∀ (conns : List Conn), (dfs_conns nodes rec conns cp vis).isSome := by
  intro conns
  induction conns with
  | nil => rfl
  | cons c rest ih =>
    rw [dfs_conns]
    obtain ⟨r₁, h1⟩ := Option.isSome_iff_exists.mp (dfs_edge_total nodes rec c cp vis hrec)
    obtain ⟨r₂, h2⟩ := Option.isSome_iff_exists.mp ih
    rw [h1, h2]
    rfl

/-- The port loop never fails when the recursive call is total. -/
theorem dfs_ports_total (nodes : List Node) (rec : String → List String → Option DfsRes)
    (cp vis : List String) (hrec : RecTotal nodes rec cp vis) :
    ∀ (ports : List (String × List Conn)), (dfs_ports nodes rec ports cp vis).isSome := by
  intro ports
  induction ports with
  | nil => rfl
  | cons pc rest ih =>
    rcases pc with ⟨pname, conns⟩
    rw [dfs_ports]
    obtain ⟨r₁, h1⟩ := Option.isSome_iff_exists.mp (dfs_conns_total nodes rec cp vis hrec conns)
    obtain ⟨r₂, h2⟩ := Option.isSome_iff_exists.mp ih
    rw [h1, h2]
    rfl

/-- Adequacy of the fuel: the DFS at a map key never exhausts fuel that
dominates the number of unvisited map keys. -/
theorem dfs_node_total (nodes : List Node) :
    ∀ (fuel : Nat) (cid : String) (cp visited : List String),
    cid ∈ mapKeys nodes → cid ∉ visited → countRemaining nodes visited ≤ fuel →
    (dfs_node nodes fuel cid cp visited).isSome := by
  intro fuel
  induction fuel with
  | zero =>
    intro cid cp visited hm hv hf
    exact absurd hf (Nat.not_le.mpr (countRemaining_pos nodes visited cid hm hv))
  | succ fuel ih =>
    intro cid cp visited hm hv hf
    cases hl : lookupNode nodes cid with
    | none => simp only [dfs_node, hl]; rfl
    | some node =>
      simp only [dfs_node, hl]
      by_cases ho : node.outputs.isEmpty = true
      · rw [if_pos ho]; rfl
      · rw [if_neg ho]
        refine dfs_ports_total nodes _ cp (visited.insert cid) ?_ node.outputs
        intro tid hlk hnv
        obtain ⟨tn, htn⟩ := Option.isSome_iff_exists.mp hlk
        refine ih tid (cp ++ [tid]) (visited.insert cid)
          (lookupNode_mem_keys nodes tid tn htn) hnv ?_
        exact Nat.le_of_lt_succ
          (Nat.lt_of_lt_of_le (countRemaining_insert_lt nodes visited cid hm hv) hf)

/-- The seed loop never fails when every seed is a map key. -/
theorem dfs_seeds_total (nodes : List Node) :
    ∀ (ss : List String), (∀ s ∈ ss, s ∈ mapKeys nodes) →
    (dfs_seeds nodes (initial_fuel nodes) ss).isSome := by
  intro ss
  induction ss with
  | nil => intro _; rfl
  | cons s rest ih =>
    intro hss
    rw [dfs_seeds]
    obtain ⟨r₁, h1⟩ := Option.isSome_iff_exists.mp
      (dfs_node_total nodes (initial_fuel nodes) s [s] []
        (hss s (List.mem_cons_self s rest)) (by simp) (countRemaining_nil_le nodes))
    obtain ⟨r₂, h2⟩ := Option.isSome_iff_exists.mp
      (ih (fun t ht => hss t (List.mem_cons_of_mem s ht)))
    rw [h1, h2]
    rfl

/-- The whole path search, guards included, never exhausts its fuel. -/
theorem find_link_paths_opt_isSome (nodes : List Node) : (find_link_paths_opt nodes).isSome := by
  unfold find_link_paths_opt
  by_cases h1 : nodes.isEmpty = true
  · rw [if_pos h1]; rfl
  · rw [if_neg h1]
    by_cases h2 : (mapKeys nodes).isEmpty = true
    · rw [if_pos h2]; rfl
    · rw [if_neg h2]
      by_cases h3 : (start_node_ids nodes).isEmpty = true
      · rw [if_pos h3]; rfl
      · rw [if_neg h3]
        exact dfs_seeds_total nodes (start_node_ids nodes)
          (fun s hs => start_node_ids_sub nodes s hs)

/-- C7: `find_link_paths` terminates on every finite node list — the
fueled model of the DFS, whose fuel a recursive call strictly shrinks
while the measure of unvisited map keys strictly drops, never exhausts
the initial fuel, so the `Option`-valued search always returns a
result. -/
theorem find_link_paths_terminates (nodes : List Node) :
    (find_link_paths_opt nodes).isSome :=
  find_link_paths_opt_isSome nodes

/-- The result of one connection is contained in the result of its
connection loop. -/
theorem dfs_conns_piece (nodes : List Node) (rec : String → List String → Option DfsRes)
    (cp vis : List String) :
    ∀ (conns : List Conn) (res : DfsRes) (c : Conn),
    dfs_conns nodes rec conns cp vis = some res → c ∈ conns →
    ∃ r, dfs_edge nodes rec c cp vis = some r ∧ r.1 ⊆ res.1 := by
  intro conns
  induction conns with
  | nil => intro res c _ hc; simp at hc
  | cons c' rest ih =>
    intro res c h hc
    rw [dfs_conns] at h
    rw [Option.bind_eq_bind, Option.bind_eq_some] at h
    obtain ⟨r₁, h1, h⟩ := h
    rw [Option.bind_eq_some] at h
    obtain ⟨r₂, h2, h⟩ := h
    injection h with h
    rw [← h]
    rcases List.mem_cons.mp hc with hcc | hcc
    · exact ⟨r₁, hcc ▸ h1, List.subset_append_left _ _⟩
    · obtain ⟨r, hr, hsub⟩ := ih r₂ c h2 hcc
      exact ⟨r, hr, hsub.trans (List.subset_append_right _ _)⟩

/-- The result of one port's connection loop is contained in the result
of the port loop. -/
theorem dfs_ports_piece (nodes : List Node) (rec : String → List String → Option DfsRes)
    (cp vis : List String) :
    ∀ (ports : List (String × List Conn)) (res : DfsRes) (port : String) (conns : List Conn),
    dfs_ports nodes rec ports cp vis = some res → (port, conns) ∈ ports →
    ∃ r, dfs_conns nodes rec conns cp vis = some r ∧ r.1 ⊆ res.1 := by
  intro ports
  induction ports with
  | nil => intro res port conns _ hc; simp at hc
  | cons pc rest ih =>
    intro res port conns h hc
    rcases pc with ⟨pname, pconns⟩
    rw [dfs_ports] at h
    rw [Option.bind_eq_bind, Option.bind_eq_some] at h
    obtain ⟨r₁, h1, h⟩ := h
    rw [Option.bind_eq_some] at h
    obtain ⟨r₂, h2, h⟩ := h
    injection h with h
    rw [← h]
    rcases List.mem_cons.mp hc with hcc | hcc
    · have hcs : pconns = conns := by
        injection hcc.symm with h1' h2'
      rw [hcs] at h1
      exact ⟨r₁, h1, List.subset_append_left _ _⟩
    · obtain ⟨r, hr, hsub⟩ := ih r₂ port conns h2 hcc
      exact ⟨r, hr, hsub.trans (List.subset_append_right _ _)⟩

/-- The result of one seed is contained in the result of the seed
loop. -/
theorem dfs_seeds_piece (nodes : List Node) (fuel : Nat) :
    ∀ (ss : List String) (res : DfsRes) (s : String),
    dfs_seeds nodes fuel ss = some res → s ∈ ss →
    ∃ r, dfs_node nodes fuel s [s] [] = some r ∧ r.1 ⊆ res.1 := by
  intro ss
  induction ss with
  | nil => intro res s _ hs; simp at hs
  | cons s' rest ih =>
    intro res s h hs
    rw [dfs_seeds] at h
    rw [Option.bind_eq_bind, Option.bind_eq_some] at h
    obtain ⟨r₁, h1, h⟩ := h
    rw [Option.bind_eq_some] at h
    obtain ⟨r₂, h2, h⟩ := h
    injection h with h
    rw [← h]
    rcases List.mem_cons.mp hs with hss | hss
    · exact ⟨r₁, hss ▸ h1, List.subset_append_left _ _⟩
    · obtain ⟨r, hr, hsub⟩ := ih r₂ s h2 hss
      exact ⟨r, hr, hsub.trans (List.subset_append_right _ _)⟩

/-- Completeness of the fueled DFS: a chain of graph hops from the
current node through fresh unvisited non-`state` ids to a `state` target
is collected as a path. -/
theorem dfs_node_complete (nodes : List Node) :
    ∀ (fuel : Nat) (cid : String) (cp visited : List String) (res : DfsRes)
    (walk : List String) (target : String),
    dfs_node nodes fuel cid cp visited = some res →
    List.Chain (EdgeStep nodes) cid (walk ++ [target]) →
    (∀ m ∈ walk, isStateId nodes m = false ∧ (lookupNode nodes m).isSome ∧
      m ∉ visited.insert cid) →
    walk.Nodup →
    isStateId nodes target = true →
    cp ++ (walk ++ [target]) ∈ res.1 := by
  intro fuel
  induction fuel with
  | zero =>
    intro cid cp visited res walk target h
    simp [dfs_node] at h
  | succ fuel ih =>
    intro cid cp visited res walk target h hchain hmid hnd htgt
    cases walk with
    | nil =>
      rw [List.nil_append] at hchain
      have hedge : EdgeStep nodes cid target := (List.chain_cons.mp hchain).1
      obtain ⟨hne, n, port, conns, c, hlk, hport, hc, hcn⟩ := hedge
      simp only [dfs_node, hlk] at h
      have hoe : ¬(n.outputs.isEmpty = true) := by
        intro hco
        rw [List.isEmpty_iff] at hco
        rw [hco] at hport
        simp at hport
      rw [if_neg hoe] at h
      obtain ⟨r₁, hr₁, hsub₁⟩ := dfs_ports_piece nodes _ cp (visited.insert cid)
        n.outputs res port conns h hport
      obtain ⟨r₂, hr₂, hsub₂⟩ := dfs_conns_piece nodes _ cp (visited.insert cid)
        conns r₁ c hr₁ hc
      obtain ⟨tnode, htl, hts⟩ := (isStateId_iff nodes target).mp htgt
      simp only [dfs_edge, hcn, htl] at hr₂
      rw [if_neg hne, if_pos hts] at hr₂
      injection hr₂ with hr₂
      rw [← hr₂] at hsub₂
      exact hsub₁ (hsub₂ (by simp))
    | cons m rest =>
      rw [List.cons_append] at hchain
      rw [List.chain_cons] at hchain
      obtain ⟨hedge, hchain'⟩ := hchain
      obtain ⟨hne, n, port, conns, c, hlk, hport, hc, hcn⟩ := hedge
      obtain ⟨hm_ns, hm_lk, hm_nv⟩ := hmid m (List.mem_cons_self m rest)
      simp only [dfs_node, hlk] at h
      have hoe : ¬(n.outputs.isEmpty = true) := by
        intro hco
        rw [List.isEmpty_iff] at hco
        rw [hco] at hport
        simp at hport
      rw [if_neg hoe] at h
      obtain ⟨r₁, hr₁, hsub₁⟩ := dfs_ports_piece nodes _ cp (visited.insert cid)
        n.outputs res port conns h hport
      obtain ⟨r₂, hr₂, hsub₂⟩ := dfs_conns_piece nodes _ cp (visited.insert cid)
        conns r₁ c hr₁ hc
      obtain ⟨mnode, hml⟩ := Option.isSome_iff_exists.mp hm_lk
      have hmt : ¬(mnode.type = some "state") := by
        intro hcontra
        have htrue := (isStateId_iff nodes m).mpr ⟨mnode, hml, hcontra⟩
        rw [htrue] at hm_ns
        cases hm_ns
      simp only [dfs_edge, hcn, hml] at hr₂
      rw [if_neg hne, if_neg hmt, if_neg hm_nv] at hr₂
      have hmr : m ∉ rest := (List.nodup_cons.mp hnd).1
      have hstep := ih m (cp ++ [m]) (visited.insert cid) r₂ rest target hr₂ hchain'
        (by
          intro x hx
          obtain ⟨hx1, hx2, hx3⟩ := hmid x (List.mem_cons_of_mem m hx)
          refine ⟨hx1, hx2, ?_⟩
          rw [List.mem_insert_iff]
          rintro (hxm | hxv)
          · exact hmr (hxm ▸ hx)
          · exact hx3 hxv)
        (List.nodup_cons.mp hnd).2 htgt
      have heq : (cp ++ [m]) ++ (rest ++ [target]) = cp ++ ((m :: rest) ++ [target]) := by
        simp
      rw [heq] at hstep
      exact hsub₁ (hsub₂ hstep)

/-- Every cycle diagnostic of one connection step ends in a non-`state`
id. -/
theorem dfs_edge_diag (nodes : List Node) (rec : String → List String → Option DfsRes)
    (c : Conn) (cp vis : List String) (res : DfsRes)
    (hrec : RecDiag nodes rec cp vis)
    (h : dfs_edge nodes rec c cp vis = some res) :
    ∀ d ∈ res.2, DiagLast nodes d := by
  cases hc : c.node with
  | none =>
    rw [dfs_edge, hc] at h
    injection h with h
    rw [← h]
    intro d hd
    simp at hd
  | some tid =>
    simp only [dfs_edge, hc] at h
    by_cases he : tid = ""
    · rw [if_pos he] at h
      injection h with h
      rw [← h]
      intro d hd
      simp at hd
    · rw [if_neg he] at h
      cases hl : lookupNode nodes tid with
      | none =>
        simp only [hl] at h
        injection h with h
        rw [← h]
        intro d hd
        simp at hd
      | some tnode =>
        simp only [hl] at h
        by_cases hs : tnode.type = some "state"
        · rw [if_pos hs] at h
          injection h with h
          rw [← h]
          intro d hd
          simp at hd
        · rw [if_neg hs] at h
          by_cases hv : tid ∈ vis
          · rw [if_pos hv] at h
            injection h with h
            rw [← h]
            intro d hd
            rw [List.mem_singleton] at hd
            rw [hd]
            intro x hx
            rw [List.getLast?_concat] at hx
            injection hx with hx
            rw [← hx]
            simp [isStateId, hl, hs]
          · rw [if_neg hv] at h
            have hns : isStateId nodes tid = false := by
              simp [isStateId, hl, hs]
            exact hrec tid res (by rw [hl]; rfl) hns hv h

/-- Every cycle diagnostic of the connection loop ends in a non-`state`
id. -/
theorem dfs_conns_diag (nodes : List Node) (rec : String → List String → Option DfsRes)
    (cp vis : List String) (hrec : RecDiag nodes rec cp vis) :
    ∀ (conns : List Conn) (res : DfsRes), dfs_conns nodes rec conns cp vis = some res →
    ∀ d ∈ res.2, DiagLast nodes d := by
  intro conns
  induction conns with
  | nil =>
    intro res h
    injection h with h
    rw [← h]
    intro d hd
    simp at hd
  | cons c rest ih =>
    intro res h
    rw [dfs_conns] at h
    rw [Option.bind_eq_bind, Option.bind_eq_some] at h
    obtain ⟨r₁, h1, h⟩ := h
    rw [Option.bind_eq_some] at h
    obtain ⟨r₂, h2, h⟩ := h
    injection h with h
    rw [← h]
    intro d hd
    rcases List.mem_append.mp hd with hd | hd
    · exact dfs_edge_diag nodes rec c cp vis r₁ hrec h1 d hd
    · exact ih r₂ h2 d hd

/-- Every cycle diagnostic of the port loop ends in a non-`state` id. -/
theorem dfs_ports_diag (nodes : List Node) (rec : String → List String → Option DfsRes)
    (cp vis : List String) (hrec : RecDiag nodes rec cp vis) :
    ∀ (ports : List (String × List Conn)) (res : DfsRes),
    dfs_ports nodes rec ports cp vis = some res →
    ∀ d ∈ res.2, DiagLast nodes d := by
  intro ports
  induction ports with
  | nil =>
    intro res h
    injection h with h
    rw [← h]
    intro d hd
    simp at hd
  | cons pc rest ih =>
    intro res h
    rcases pc with ⟨pname, conns⟩
    rw [dfs_ports] at h
    rw [Option.bind_eq_bind, Option.bind_eq_some] at h
    obtain ⟨r₁, h1, h⟩ := h
    rw [Option.bind_eq_some] at h
    obtain ⟨r₂, h2, h⟩ := h
    injection h with h
    rw [← h]
    intro d hd
    rcases List.mem_append.mp hd with hd | hd
    · exact dfs_conns_diag nodes rec cp vis hrec conns r₁ h1 d hd
    · exact ih r₂ h2 d hd

/-- Every cycle diagnostic of the fueled DFS ends in a non-`state`
id. -/
theorem dfs_node_diag (nodes : List Node) :
    ∀ (fuel : Nat) (cid : String) (cp visited : List String) (res : DfsRes),
    dfs_node nodes fuel cid cp visited = some res →
    ∀ d ∈ res.2, DiagLast nodes d := by
  intro fuel
  induction fuel with
  | zero =>
    intro cid cp visited res h
    simp [dfs_node] at h
  | succ fuel ih =>
    intro cid cp visited res h
    cases hl : lookupNode nodes cid with
    | none =>
      simp only [dfs_node, hl] at h
      injection h with h
      rw [← h]
      intro d hd
      simp at hd
    | some node =>
      simp only [dfs_node, hl] at h
      by_cases ho : node.outputs.isEmpty = true
      · rw [if_pos ho] at h
        injection h with h
        rw [← h]
        intro d hd
        simp at hd
      · rw [if_neg ho] at h
        refine dfs_ports_diag nodes _ cp (visited.insert cid) ?_ node.outputs res h
        intro tid r _ _ _ hcall
        exact ih tid (cp ++ [tid]) (visited.insert cid) r hcall

/-- Every cycle diagnostic of the seed loop ends in a non-`state` id. -/
theorem dfs_seeds_diag (nodes : List Node) (fuel : Nat) :
    ∀ (ss : List String) (res : DfsRes),
    dfs_seeds nodes fuel ss = some res →
    ∀ d ∈ res.2, DiagLast nodes d := by
  intro ss
  induction ss with
  | nil =>
    intro res h
    injection h with h
    rw [← h]
    intro d hd
    simp at hd
  | cons s rest ih =>
    intro res h
    rw [dfs_seeds] at h
    rw [Option.bind_eq_bind, Option.bind_eq_some] at h
    obtain ⟨r₁, h1, h⟩ := h
    rw [Option.bind_eq_some] at h
    obtain ⟨r₂, h2, h⟩ := h
    injection h with h
    rw [← h]
    intro d hd
    rcases List.mem_append.mp hd with hd | hd
    · exact dfs_node_diag nodes fuel s [s] [] r₁ h1 d hd
    · exact ih r₂ h2 d hd

/-- Every cycle diagnostic of the path search ends in a non-`state`
id. -/
theorem find_link_cycles_last (nodes : List Node) :
    ∀ d ∈ find_link_cycles nodes, DiagLast nodes d := by
  intro d hd
  unfold find_link_cycles find_link_paths_opt at hd
  by_cases h1 : nodes.isEmpty = true
  · rw [if_pos h1] at hd
    simp at hd
  · rw [if_neg h1] at hd
    by_cases h2 : (mapKeys nodes).isEmpty = true
    · rw [if_pos h2] at hd
      simp at hd
    · rw [if_neg h2] at hd
      by_cases h3 : (start_node_ids nodes).isEmpty = true
      · rw [if_pos h3] at hd
        simp at hd
      · rw [if_neg h3] at hd
        cases hs : dfs_seeds nodes (initial_fuel nodes) (start_node_ids nodes) with
        | none =>
          rw [hs] at hd
          simp at hd
        | some res =>
          rw [hs] at hd
          exact dfs_seeds_diag nodes (initial_fuel nodes) (start_node_ids nodes) res hs d hd

/-- C10: `find_link_paths` treats a walk from a `state` node back to
itself — directly or through fresh non-`state` intermediate nodes — as a
completed transition: it returns the path whose first and last ids are
that state, and reports no cycle diagnostic for it. -/
theorem self_loop_path_emitted (nodes : List Node) (start : String) (walk : List String)
    (hstart : isStateId nodes start = true)
    (hchain : List.Chain (EdgeStep nodes) start (walk ++ [start]))
    (hmid : ∀ m ∈ walk, isStateId nodes m = false ∧ (lookupNode nodes m).isSome)
    (hnd : (start :: walk).Nodup) :
    start :: (walk ++ [start]) ∈ find_link_paths nodes ∧
    start :: (walk ++ [start]) ∉ find_link_cycles nodes := by
  constructor
  · obtain ⟨n, hl, ht⟩ := (isStateId_iff nodes start).mp hstart
    have hks : start ∈ mapKeys nodes := lookupNode_mem_keys nodes start n hl
    have hsi : start ∈ start_node_ids nodes := by
      unfold lookupNode at hl
      have hmemf := lastMem _ _ hl
      rw [List.mem_filter] at hmemf
      obtain ⟨hn, hsid⟩ := hmemf
      refine List.mem_filterMap.mpr ⟨n, hn, ?_⟩
      have hsid' : strId n = some start := by simpa using hsid
      rw [hsid']
      simp [ht]
    have hnn : ¬(nodes.isEmpty = true) := by
      rw [List.isEmpty_iff]
      intro he
      rw [he] at hks
      simp [mapKeys] at hks
    unfold find_link_paths find_link_paths_opt
    rw [if_neg hnn,
      if_neg (by rw [List.isEmpty_iff]; exact List.ne_nil_of_mem hks),
      if_neg (by rw [List.isEmpty_iff]; exact List.ne_nil_of_mem hsi)]
    have hsome := dfs_seeds_total nodes (start_node_ids nodes)
      (fun s hs => start_node_ids_sub nodes s hs)
    cases hd : dfs_seeds nodes (initial_fuel nodes) (start_node_ids nodes) with
    | none =>
      rw [hd] at hsome
      cases hsome
    | some res =>
      obtain ⟨r, hrnode, hsub⟩ :=
        dfs_seeds_piece nodes (initial_fuel nodes) (start_node_ids nodes) res start hd hsi
      have hsw : start ∉ walk := (List.nodup_cons.mp hnd).1
      have hin := dfs_node_complete nodes (initial_fuel nodes) start [start] [] r walk start
        hrnode hchain
        (by
          intro m hm
          obtain ⟨hm1, hm2⟩ := hmid m hm
          refine ⟨hm1, hm2, ?_⟩
          intro hmem
          rw [List.mem_insert_iff] at hmem
          rcases hmem with hmem | hmem
          · exact hsw (hmem ▸ hm)
          · simp at hmem)
        (List.nodup_cons.mp hnd).2 hstart
      exact hsub (by simpa using hin)
  · intro hmem
    have hlast := find_link_cycles_last nodes _ hmem start
      (by
        rw [show start :: (walk ++ [start]) = (start :: walk) ++ [start] from rfl]
        exact List.getLast?_concat _)
    rw [hstart] at hlast
    cases hlast

/-- Closed witness for C10 on the one-state self-looping graph. -/
theorem self_loop_path_emitted_witness :
    isStateId loopNodes "1" = true ∧
    List.Chain (EdgeStep loopNodes) "1" (([] : List String) ++ ["1"]) ∧
    ("1" :: (([] : List String) ++ ["1"]) ∈ find_link_paths loopNodes ∧
      "1" :: (([] : List String) ++ ["1"]) ∉ find_link_cycles loopNodes) := by
  have hchain : List.Chain (EdgeStep loopNodes) "1" (([] : List String) ++ ["1"]) := by
    refine List.Chain.cons ⟨by decide, ?_⟩ List.Chain.nil
    exact ⟨⟨some 1, some "state", [("input_1", [⟨some "1", some "output_1"⟩])],
      [("output_1", [⟨some "1", none⟩])], ""⟩, "output_1", [⟨some "1", none⟩],
      ⟨some "1", none⟩, by decide, by decide, by decide, rfl⟩
  exact ⟨by decide, hchain,
    self_loop_path_emitted loopNodes "1" [] (by decide) hchain (by simp) (by decide)⟩

/-- Soundness of the structural equality test, by strong induction on
the size. -/
theorem beqB_strong : ∀ (n : Nat),
    (∀ a b : BExpr, sizeOf a ≤ n → beqB a b = true → a = b) ∧
    (∀ as bs : List BExpr, sizeOf as ≤ n → beqL as bs = true → as = bs) := by
  intro n
  induction n with
  | zero =>
    constructor
    · intro a b ha
      exact absurd ha (by cases a <;> simp)
    · intro as bs ha
      exact absurd ha (by cases as <;> simp)
  | succ n ih =>
    obtain ⟨ihB, ihL⟩ := ih
    constructor
    · intro a b ha h
      cases a with
      | tru => cases b <;> simp [beqB] at h ⊢
      | fls => cases b <;> simp [beqB] at h ⊢
      | var x => cases b <;> simp [beqB] at h ⊢ <;> exact h
      | unexpected t => cases b <;> simp [beqB] at h ⊢ <;> exact h
      | notE ea =>
        cases b <;> simp [beqB] at h ⊢
        case notE eb => exact ihB ea eb (by simp at ha; omega) h
      | andE as =>
        cases b <;> simp [beqB] at h ⊢
        case andE bs => exact ihL as bs (by simp at ha; omega) h
      | orE as =>
        cases b <;> simp [beqB] at h ⊢
        case orE bs => exact ihL as bs (by simp at ha; omega) h
    · intro as bs ha h
      cases as with
      | nil =>
        cases bs with
        | nil => rfl
        | cons y ys => simp [beqL] at h
      | cons x xs =>
        cases bs with
        | nil => simp [beqL] at h
        | cons y ys =>
          simp only [beqL, Bool.and_eq_true] at h
          obtain ⟨h1, h2⟩ := h
          have hx : sizeOf x ≤ n := by simp at ha; omega
          have hxs : sizeOf xs ≤ n := by simp at ha; omega
          rw [ihB x y hx h1, ihL xs ys hxs h2]

/-- Reflexivity of the structural equality test. -/
theorem beqB_refl_strong : ∀ (n : Nat),
    (∀ a : BExpr, sizeOf a ≤ n → beqB a a = true) ∧
    (∀ as : List BExpr, sizeOf as ≤ n → beqL as as = true) := by
  intro n
  induction n with
  | zero =>
    constructor
    · intro a ha
      exact absurd ha (by cases a <;> simp)
    · intro as ha
      exact absurd ha (by cases as <;> simp)
  | succ n ih =>
    obtain ⟨ihB, ihL⟩ := ih
    constructor
    · intro a ha
      cases a with
      | tru => rfl
      | fls => rfl
      | var x => simp [beqB]
      | unexpected t => simp [beqB]
      | notE ea => exact ihB ea (by simp at ha; omega)
      | andE as =>
        show beqL as as = true
        exact ihL as (by simp at ha; omega)
      | orE as =>
        show beqL as as = true
        exact ihL as (by simp at ha; omega)
    · intro as ha
      cases as with
      | nil => rfl
      | cons x xs =>
        show (beqB x x && beqL xs xs) = true
        rw [ihB x (by simp at ha; omega), ihL xs (by simp at ha; omega)]
        rfl

/-- `beqB` decides equality of expressions. -/
theorem beqB_iff (a b : BExpr) : beqB a b = true ↔ a = b :=
  ⟨(beqB_strong (sizeOf a)).1 a b (Nat.le_refl _),
   fun h => h ▸ (beqB_refl_strong (sizeOf a)).1 a (Nat.le_refl _)⟩

/-- `beqB` rejects exactly the unequal pairs. -/
theorem beqB_false_iff (a b : BExpr) : beqB a b = false ↔ a ≠ b := by
  constructor
  · intro h hab
    rw [hab, (beqB_iff b b).mpr rfl] at h
    cases h
  · intro h
    cases hb : beqB a b with
    | false => rfl
    | true => exact absurd ((beqB_iff a b).mp hb) h

/-- Membership under the canonical insertion. -/
theorem insertB_mem : ∀ (l : List BExpr) (a x : BExpr),
    x ∈ insertB a l ↔ x = a ∨ x ∈ l := by
  intro l
  induction l with
  | nil => intro a x; simp [insertB]
  | cons b bs ih =>
    intro a x
    rw [insertB]
    by_cases hle : bLe a b = true
    · rw [if_pos hle]
      simp
    · rw [if_neg hle]
      rw [List.mem_cons, ih a x, List.mem_cons]
      tauto

/-- Membership under the canonical sort. -/
theorem sortCanon_mem : ∀ (l : List BExpr) (x : BExpr), x ∈ sortCanon l ↔ x ∈ l := by
  intro l
  induction l with
  | nil => intro x; simp [sortCanon]
  | cons b bs ih =>
    intro x
    show x ∈ insertB b (sortCanon bs) ↔ _
    rw [insertB_mem, ih x, List.mem_cons]

/-- Deduplication only keeps members of the input. -/
theorem mem_dedupBAux_sub : ∀ (l seen : List BExpr) (x : BExpr),
    x ∈ dedupBAux seen l → x ∈ l := by
  intro l
  induction l with
  | nil => intro seen x h; simp [dedupBAux] at h
  | cons y ys ih =>
    intro seen x h
    rw [dedupBAux] at h
    by_cases hc : (seen.any (fun z => beqB y z)) = true
    · rw [if_pos hc] at h
      exact List.mem_cons_of_mem y (ih seen x h)
    · rw [if_neg hc] at h
      rcases List.mem_cons.mp h with h | h
      · exact h ▸ List.mem_cons_self y ys
      · exact List.mem_cons_of_mem y (ih (y :: seen) x h)

/-- Deduplication keeps every member that the seen set does not hold. -/
theorem mem_dedupBAux : ∀ (l seen : List BExpr) (x : BExpr),
    x ∈ l → x ∉ seen → x ∈ dedupBAux seen l := by
  intro l
  induction l with
  | nil => intro seen x h; simp at h
  | cons y ys ih =>
    intro seen x hx hseen
    rw [dedupBAux]
    by_cases hc : (seen.any (fun z => beqB y z)) = true
    · rw [if_pos hc]
      rcases List.mem_cons.mp hx with h | h
      · obtain ⟨z, hz, hbz⟩ := List.any_eq_true.mp hc
        rw [(beqB_iff y z).mp hbz] at h
        exact absurd (h ▸ hz) hseen
      · exact ih seen x h hseen
    · rw [if_neg hc]
      rcases List.mem_cons.mp hx with h | h
      · exact h ▸ List.mem_cons_self y (dedupBAux (y :: seen) ys)
      · by_cases hxy : x = y
        · exact hxy ▸ List.mem_cons_self y (dedupBAux (y :: seen) ys)
        · refine List.mem_cons_of_mem y (ih (y :: seen) x h ?_)
          intro hmem
          rcases List.mem_cons.mp hmem with hm | hm
          · exact hxy hm
          · exact hseen hm

/-- `Or` with an absorbed left constant. -/
theorem sOr_tru_left (x : BExpr) : sOr BExpr.tru x = BExpr.tru := by
  simp only [sOr]
  have hmem : BExpr.tru ∈ (orArgs BExpr.tru ++ orArgs x).filter (fun y => !beqB y BExpr.fls) := by
    refine List.mem_filter.mpr ⟨List.mem_append_left _ ?_, by rfl⟩
    rw [show orArgs BExpr.tru = [BExpr.tru] from rfl]
    exact List.mem_singleton.mpr rfl
  have hany : (((orArgs BExpr.tru ++ orArgs x).filter (fun y => !beqB y BExpr.fls)).any
      (fun y => beqB y BExpr.tru)) = true :=
    List.any_eq_true.mpr ⟨BExpr.tru, hmem, (beqB_iff _ _).mpr rfl⟩
  rw [if_pos hany]

/-- A fold whose steps preserve a predicate preserves it overall. -/
theorem foldl_pres {α β : Type} (P : α → Prop) (f : α → β → α)
    (hf : ∀ a b, P a → P (f a b)) : ∀ (l : List β) (a : α), P a → P (List.foldl f a l) := by
  intro l
  induction l with
  | nil => intro a ha; exact ha
  | cons b bs ih => intro a ha; exact ih (f a b) (hf a b ha)

/-- Conjoining an atomic term onto `true` or a product of atoms yields a
product of atoms: no constant survives the identity filter, no absorber
is present, and the result is a single atom or a canonical `And`. -/
theorem sAnd_atomic (acc t : BExpr) (hacc : acc = BExpr.tru ∨ ALit acc) (ht : atomicB t) :
    ALit (sAnd acc t) := by
  obtain ⟨ht1, ht2, ht3, ht4⟩ := ht
  simp only [sAnd, ht3]
  have hsub : ∀ x ∈ (andArgs acc ++ [t]).filter (fun y => !beqB y BExpr.tru), atomicB x := by
    intro x hx
    obtain ⟨hx1, hx2⟩ := List.mem_filter.mp hx
    rcases List.mem_append.mp hx1 with h | h
    · rcases hacc with rfl | hal
      · rw [show andArgs BExpr.tru = [BExpr.tru] from rfl, List.mem_singleton] at h
        rw [h] at hx2
        simp [beqB] at hx2
      · exact hal.2.2.2 x h
    · rw [List.mem_singleton] at h
      rw [h]
      exact ⟨ht1, ht2, ht3, ht4⟩
  have hfls : ¬(((andArgs acc ++ [t]).filter (fun y => !beqB y BExpr.tru)).any
      (fun y => beqB y BExpr.fls) = true) := by
    intro hany
    obtain ⟨x, hx, hbx⟩ := List.any_eq_true.mp hany
    exact (hsub x hx).2.1 ((beqB_iff _ _).mp hbx)
  rw [if_neg hfls]
  have htL : t ∈ (andArgs acc ++ [t]).filter (fun y => !beqB y BExpr.tru) := by
    refine List.mem_filter.mpr ⟨List.mem_append_right _ (List.mem_singleton.mpr rfl), ?_⟩
    rw [(beqB_false_iff _ _).mpr ht1]
    rfl
  have htS : t ∈ sortCanon (dedupB ((andArgs acc ++ [t]).filter
      (fun y => !beqB y BExpr.tru))) :=
    (sortCanon_mem _ t).mpr (mem_dedupBAux _ [] t htL (by simp))
  have hsubS : ∀ x ∈ sortCanon (dedupB ((andArgs acc ++ [t]).filter
      (fun y => !beqB y BExpr.tru))), atomicB x :=
    fun x hx => hsub x (mem_dedupBAux_sub _ _ x ((sortCanon_mem _ x).mp hx))
  cases hsc : sortCanon (dedupB ((andArgs acc ++ [t]).filter
      (fun y => !beqB y BExpr.tru))) with
  | nil =>
    rw [hsc] at htS
    simp at htS
  | cons y tl =>
    cases tl with
    | nil =>
      simp only [hsc]
      obtain ⟨hy1, hy2, hy3, hy4⟩ := hsubS y (hsc ▸ List.mem_cons_self y [])
      exact ⟨hy1, hy2, hy4, by
        rw [hy3]
        intro a ha
        rw [List.mem_singleton] at ha
        rw [ha]
        exact ⟨hy1, hy2, hy3, hy4⟩⟩
    | cons z tl2 =>
      simp only [hsc]
      refine ⟨by simp, by simp, rfl, ?_⟩
      intro a ha
      exact hsubS a (hsc ▸ ha)

/-- The present-state minterm of a non-empty code string is a product of
at least one literal. -/
theorem presentMinterm_alit (c : String) (hc : c ≠ "") : ALit (presentMinterm c) := by
  have hstep : ∀ (p : Nat × Char), atomicB (if p.2 = '1' then BExpr.var (yName p.1)
      else sNot (BExpr.var (yName p.1))) := by
    intro p
    by_cases hp : p.2 = '1'
    · rw [if_pos hp]
      exact ⟨by simp, by simp, rfl, rfl⟩
    · rw [if_neg hp]
      exact ⟨by simp [sNot], by simp [sNot], rfl, rfl⟩
  have hl : c.toList ≠ [] := by
    intro h
    apply hc
    cases c with
    | mk d =>
      rw [show String.toList ⟨d⟩ = d from rfl] at h
      rw [h]
  cases hcl : c.toList with
  | nil => exact absurd hcl hl
  | cons ch rest =>
    rw [show presentMinterm c = (List.enumFrom 0 c.toList).foldl
      (fun acc p => sAnd acc (if p.2 = '1' then BExpr.var (yName p.1)
        else sNot (BExpr.var (yName p.1)))) BExpr.tru from rfl, hcl]
    rw [show List.enumFrom 0 (ch :: rest) = (0, ch) :: List.enumFrom 1 rest from rfl,
      List.foldl_cons]
    refine foldl_pres ALit _ ?_ (List.enumFrom 1 rest) _
      (sAnd_atomic BExpr.tru _ (Or.inl rfl) (hstep (0, ch)))
    intro a p ha
    exact sAnd_atomic a _ (Or.inr ha) (hstep p)

/-- The condition of a path whose start state has a non-empty code is a
product of at least one literal. -/
theorem pathCondition_alit (inputVars : List String) (path : List (Option FNode))
    (startCode : String) (hc : startCode ≠ "") :
    ALit (pathCondition inputVars path startCode) := by
  rw [pathCondition]
  refine foldl_pres ALit _ ?_ (path.zip (path.drop 1)) _ (presentMinterm_alit startCode hc)
  intro cond pc ha
  rcases pc with ⟨o1, o2⟩
  cases o1 with
  | none => exact ha
  | some prev =>
    cases o2 with
    | none => exact ha
    | some cur =>
      show ALit (if prev.type = some "decision" then _ else cond)
      by_cases h1 : prev.type = some "decision"
      · rw [if_pos h1]
        by_cases h2 : prev.node_data ∈ inputVars
        · rw [if_pos h2]
          cases cur.indicator with
          | none => exact ha
          | some b =>
            cases b with
            | true =>
              exact sAnd_atomic cond _ (Or.inr ha) ⟨by simp, by simp, rfl, rfl⟩
            | false =>
              exact sAnd_atomic cond _ (Or.inr ha) ⟨by simp [sNot], by simp [sNot], rfl, rfl⟩
        · rw [if_neg h2]
          exact ha
      · rw [if_neg h1]
        exact ha

/-- The initial equation `false` has the accumulated-equation shape. -/
theorem goodE_fls : GoodE BExpr.fls := by
  intro d hd
  rw [show orArgs BExpr.fls = [BExpr.fls] from rfl, List.mem_singleton] at hd
  rw [hd]
  exact ⟨by simp, rfl⟩

/-- Or-ing a non-`true`, non-`Or` term onto a well-shaped equation keeps
the shape, and every non-`false` disjunct of either operand survives as a
disjunct of the result. -/
theorem sOr_good (e x : BExpr) (he : GoodE e) (hx1 : x ≠ BExpr.tru) (hx2 : orArgs x = [x]) :
    GoodE (sOr e x) ∧
    (∀ m ∈ orArgs e ++ orArgs x, m ≠ BExpr.fls → m ∈ disjuncts (sOr e x)) := by
  simp only [sOr]
  have hany : ¬(((orArgs e ++ orArgs x).filter (fun y => !beqB y BExpr.fls)).any
      (fun y => beqB y BExpr.tru) = true) := by
    intro h
    obtain ⟨d, hd, hbd⟩ := List.any_eq_true.mp h
    have hde := (beqB_iff _ _).mp hbd
    have hdm := (List.mem_filter.mp hd).1
    rcases List.mem_append.mp hdm with hdm | hdm
    · exact (he d hdm).1 hde
    · rw [hx2, List.mem_singleton] at hdm
      exact hx1 (hdm ▸ hde)
  rw [if_neg hany]
  have hmem1 : ∀ d ∈ sortCanon (dedupB ((orArgs e ++ orArgs x).filter
      (fun y => !beqB y BExpr.fls))), d ≠ BExpr.tru ∧ orArgs d = [d] := by
    intro d hd
    have hd0 := mem_dedupBAux_sub _ _ d ((sortCanon_mem _ d).mp hd)
    have hdm := (List.mem_filter.mp hd0).1
    rcases List.mem_append.mp hdm with hdm | hdm
    · exact he d hdm
    · rw [hx2, List.mem_singleton] at hdm
      refine ⟨?_, ?_⟩
      · rw [hdm]
        exact hx1
      · rw [hdm]
        exact hx2
  have hkeep : ∀ m ∈ orArgs e ++ orArgs x, m ≠ BExpr.fls →
      m ∈ sortCanon (dedupB ((orArgs e ++ orArgs x).filter
        (fun y => !beqB y BExpr.fls))) := by
    intro m hm hmf
    have hm0 : m ∈ (orArgs e ++ orArgs x).filter (fun y => !beqB y BExpr.fls) := by
      refine List.mem_filter.mpr ⟨hm, ?_⟩
      rw [(beqB_false_iff _ _).mpr hmf]
      rfl
    exact (sortCanon_mem _ m).mpr (mem_dedupBAux _ [] m hm0 (by simp))
  cases hsc : sortCanon (dedupB ((orArgs e ++ orArgs x).filter
      (fun y => !beqB y BExpr.fls))) with
  | nil =>
    simp only [hsc]
    constructor
    · exact goodE_fls
    · intro m hm hmf
      have := hkeep m hm hmf
      rw [hsc] at this
      simp at this
  | cons y tl =>
    cases tl with
    | nil =>
      simp only [hsc]
      obtain ⟨hy1, hy2⟩ := hmem1 y (hsc ▸ List.mem_cons_self y [])
      constructor
      · intro d hd
        rw [hy2, List.mem_singleton] at hd
        rw [hd]
        exact ⟨hy1, hy2⟩
      · intro m hm hmf
        have hms := hkeep m hm hmf
        rw [hsc, List.mem_singleton] at hms
        show m ∈ orArgs y
        rw [hy2, List.mem_singleton]
        exact hms
    | cons z tl2 =>
      simp only [hsc]
      constructor
      · intro d hd
        exact hmem1 d (hsc ▸ hd)
      · intro m hm hmf
        have hms := hkeep m hm hmf
        rw [hsc] at hms
        exact hms

/-- Rewriting the entry of one key of an equation map changes only that
key's equation. -/
theorem eqnLookup_map_orKey : ∀ (m : List (String × BExpr)) (k : String) (v : BExpr),
    eqnLookup (m.map (fun q => if q.1 = k then (k, v) else q)) k =
      (eqnLookup m k).map (fun _ => v) := by
  intro m k v
  induction m with
  | nil => rfl
  | cons q qs ih =>
    by_cases hq : q.1 = k
    · rw [List.map_cons, show (if q.1 = k then (k, v) else q) = (k, v) from if_pos hq]
      rw [eqnLookup, List.find?_cons_of_pos _ (by simp)]
      rw [eqnLookup, List.find?_cons_of_pos _ (by simp [hq])]
      rfl
    · rw [List.map_cons, show (if q.1 = k then (k, v) else q) = q from if_neg hq]
      rw [eqnLookup, List.find?_cons_of_neg _ (by simp [hq])]
      rw [eqnLookup, List.find?_cons_of_neg _ (by simp [hq])]
      rw [← eqnLookup, ← eqnLookup]
      exact ih

/-- Rewriting the entry of one key leaves lookups of other keys
unchanged. -/
theorem eqnLookup_map_orKey_other : ∀ (m : List (String × BExpr)) (k n : String) (v : BExpr),
    n ≠ k →
    eqnLookup (m.map (fun q => if q.1 = k then (k, v) else q)) n = eqnLookup m n := by
  intro m k n v hne
  induction m with
  | nil => rfl
  | cons q qs ih =>
    by_cases hq : q.1 = k
    · rw [List.map_cons, show (if q.1 = k then (k, v) else q) = (k, v) from if_pos hq]
      rw [eqnLookup, List.find?_cons_of_neg _ (by simp; exact fun h => hne h.symm)]
      rw [eqnLookup, List.find?_cons_of_neg _ (by simp [hq]; exact fun h => hne h.symm)]
      rw [← eqnLookup, ← eqnLookup]
      exact ih
    · rw [List.map_cons, show (if q.1 = k then (k, v) else q) = q from if_neg hq]
      by_cases hqn : q.1 = n
      · rw [eqnLookup, List.find?_cons_of_pos _ (by simp [hqn])]
        rw [eqnLookup, List.find?_cons_of_pos _ (by simp [hqn])]
      · rw [eqnLookup, List.find?_cons_of_neg _ (by simp [hqn])]
        rw [eqnLookup, List.find?_cons_of_neg _ (by simp [hqn])]
        rw [← eqnLookup, ← eqnLookup]
        exact ih

/-- Or-ing into a bound key rewrites its equation to the disjunction. -/
theorem eqnLookup_orInto_same (m : List (String × BExpr)) (k : String) (x e : BExpr)
    (h : eqnLookup m k = some e) :
    eqnLookup (orInto m k x) k = some (sOr e x) := by
  rw [orInto]
  cases hf : m.find? (fun p => p.1 = k) with
  | none =>
    rw [eqnLookup, hf] at h
    cases h
  | some p =>
    have hpe : p.2 = e := by
      rw [eqnLookup, hf] at h
      injection h
    rw [eqnLookup_map_orKey m k (sOr p.2 x), h, hpe]
    rfl

/-- Or-ing into one key leaves the equations of other keys unchanged. -/
theorem eqnLookup_orInto_other (m : List (String × BExpr)) (k n : String) (x : BExpr)
    (hne : n ≠ k) :
    eqnLookup (orInto m k x) n = eqnLookup m n := by
  rw [orInto]
  cases hf : m.find? (fun p => p.1 = k) with
  | none => rfl
  | some p => exact eqnLookup_map_orKey_other m k n (sOr p.2 x) hne

/-- Or-ing into a key never changes which keys are bound. -/
theorem eqnLookup_orInto_isSome (m : List (String × BExpr)) (k n : String) (x : BExpr) :
    (eqnLookup (orInto m k x) n).isSome = (eqnLookup m n).isSome := by
  by_cases hne : n = k
  · subst hne
    cases he : eqnLookup m n with
    | none =>
      rw [eqnLookup] at he ⊢
      cases hf : m.find? (fun p => p.1 = n) with
      | none => rw [orInto, hf]; rw [hf]
      | some p => rw [hf] at he; cases he
    | some e => simp [eqnLookup_orInto_same m n x e he, he]
  · rw [eqnLookup_orInto_other m k n x hne]

/-- Every name of the initialisation list is bound in the initial
equation map. -/
theorem eqnLookup_init_map : ∀ (l : List String) (n : String), n ∈ l →
    (eqnLookup (l.map (fun m => (m, BExpr.fls))) n).isSome = true := by
  intro l
  induction l with
  | nil => intro n hn; simp at hn
  | cons m ms ih =>
    intro n hn
    rw [eqnLookup]
    by_cases hm : m = n
    · rw [List.map_cons, List.find?_cons_of_pos _ (by simp [hm])]
      rfl
    · rcases List.mem_cons.mp hn with h | h
      · exact absurd h.symm hm
      · rw [List.map_cons, List.find?_cons_of_neg _ (by simp [hm])]
        have := ih n h
        rw [eqnLookup] at this
        cases hf : (ms.map (fun m => (m, BExpr.fls))).find? (fun p => p.1 = n) with
        | none => rw [hf] at this; cases this
        | some p => rfl

/-- The Mealy event loop of one path preserves which output keys are
bound. -/
theorem event_fold_isSome (eventOutputs allOutputNames : List String) (cond : BExpr)
    (path : List (Option FNode)) (m0 : List (String × BExpr)) (n : String) :
    (eqnLookup (path.foldl
      (fun m stepOpt =>
        match stepOpt with
        | none => m
        | some st =>
          if st.type = some "event" ∧ st.node_data ∈ eventOutputs then
            if st.node_data ∈ allOutputNames then orInto m st.node_data cond else m
          else m) m0) n).isSome = (eqnLookup m0 n).isSome := by
  refine foldl_pres (fun m => (eqnLookup m n).isSome = (eqnLookup m0 n).isSome)
    _ ?_ path m0 rfl
  intro m so hm
  cases so with
  | none => exact hm
  | some st =>
    show (eqnLookup (if st.type = some "event" ∧ st.node_data ∈ eventOutputs then
      (if st.node_data ∈ allOutputNames then orInto m st.node_data cond else m)
      else m) n).isSome = (eqnLookup m0 n).isSome
    by_cases h1 : st.type = some "event" ∧ st.node_data ∈ eventOutputs
    · rw [if_pos h1]
      by_cases h2 : st.node_data ∈ allOutputNames
      · rw [if_pos h2, eqnLookup_orInto_isSome]
        exact hm
      · rw [if_neg h2]
        exact hm
    · rw [if_neg h1]
      exact hm

/-- Processing one annotated path preserves which output keys are
bound. -/
theorem processPath_snd_isSome (inputVars eventOutputs allOutputNames : List String)
    (codes : List (Int × String))
    (acc : (List (String × BExpr)) × (List (String × BExpr)))
    (po : Option (List (Option FNode))) (n : String) :
    (eqnLookup (processPath inputVars eventOutputs allOutputNames codes acc po).2 n).isSome
      = (eqnLookup acc.2 n).isSome := by
  simp only [processPath]
  split
  · rfl
  · split
    · rfl
    · rfl
    · split
      · rfl
      · split
        · rfl
        · rfl
        · split
          · split
            · rfl
            · exact event_fold_isSome eventOutputs allOutputNames _ _ acc.2 n
          · rfl

/-- The whole path fold preserves which output keys are bound. -/
theorem paths_fold_snd_isSome (inputVars eventOutputs allOutputNames : List String)
    (codes : List (Int × String)) (paths : List (Option (List (Option FNode))))
    (init : (List (String × BExpr)) × (List (String × BExpr))) (n : String) :
    (eqnLookup (paths.foldl (processPath inputVars eventOutputs allOutputNames codes)
      init).2 n).isSome = (eqnLookup init.2 n).isSome := by
  refine foldl_pres (fun acc => (eqnLookup acc.2 n).isSome = (eqnLookup init.2 n).isSome)
    _ ?_ paths init rfl
  intro acc po hacc
  rw [processPath_snd_isSome]
  exact hacc

/-- Generic first-occurrence deduplication keeps members absent from the
seen set. -/
theorem mem_dedupAux {α : Type} [DecidableEq α] : ∀ (l seen : List α) (x : α),
    x ∈ l → x ∉ seen → x ∈ dedupAux seen l := by
  intro l
  induction l with
  | nil => intro seen x h; simp at h
  | cons y ys ih =>
    intro seen x hx hseen
    rw [dedupAux]
    by_cases hc : y ∈ seen
    · rw [if_pos hc]
      rcases List.mem_cons.mp hx with h | h
      · exact absurd (h ▸ hc) hseen
      · exact ih seen x h hseen
    · rw [if_neg hc]
      rcases List.mem_cons.mp hx with h | h
      · exact h ▸ List.mem_cons_self y (dedupAux (y :: seen) ys)
      · by_cases hxy : x = y
        · exact hxy ▸ List.mem_cons_self y (dedupAux (y :: seen) ys)
        · refine List.mem_cons_of_mem y (ih (y :: seen) x h ?_)
          intro hmem
          rcases List.mem_cons.mp hmem with hm | hm
          · exact hxy hm
          · exact hseen hm

/-- A code the lookup returns is one of the stored codes, hence
non-empty when every stored code is. -/
theorem codeLookup_ne (codes : List (Int × String)) (k : Option Int) (s : String)
    (hcne : ∀ c ∈ codes, c.2 ≠ "") (h : codeLookup codes k = some s) : s ≠ "" := by
  cases k with
  | none => simp [codeLookup] at h
  | some i =>
    simp only [codeLookup] at h
    cases hf : codes.find? (fun p => p.1 = i) with
    | none =>
      simp only [hf] at h
      cases h
    | some p =>
      simp only [hf] at h
      injection h with h
      rw [← h]
      exact hcne p (List.mem_of_find?_eq_some hf)

/-- Every name of the initialisation list is bound to `false` in the
initial equation map. -/
theorem eqnLookup_init_map_val : ∀ (l : List String) (n : String), n ∈ l →
    eqnLookup (l.map (fun m => (m, BExpr.fls))) n = some BExpr.fls := by
  intro l
  induction l with
  | nil => intro n hn; simp at hn
  | cons m ms ih =>
    intro n hn
    rw [eqnLookup]
    by_cases hm : m = n
    · rw [List.map_cons, List.find?_cons_of_pos _ (by simp [hm])]
    · rcases List.mem_cons.mp hn with h | h
      · exact absurd h.symm hm
      · rw [List.map_cons, List.find?_cons_of_neg _ (by simp [hm]), ← eqnLookup]
        exact ih n h

/-- Or-ing a non-`true`, non-`Or` term anywhere keeps the looked-up
equation well-shaped. -/
theorem orInto_good (m : List (String × BExpr)) (k : String) (x : BExpr)
    (nt : String) (hx1 : x ≠ BExpr.tru) (hx2 : orArgs x = [x])
    (h : ∃ e, eqnLookup m nt = some e ∧ GoodE e) :
    ∃ e, eqnLookup (orInto m k x) nt = some e ∧ GoodE e := by
  obtain ⟨e, he, hge⟩ := h
  by_cases hk : nt = k
  · subst hk
    exact ⟨sOr e x, eqnLookup_orInto_same m nt x e he, (sOr_good e x hge hx1 hx2).1⟩
  · exact ⟨e, by rw [eqnLookup_orInto_other m k nt x hk]; exact he, hge⟩

/-- Or-ing keeps both the shape and an already-established disjunct. -/
theorem orInto_good_pres (m : List (String × BExpr)) (k : String) (x : BExpr)
    (nt : String) (mt : BExpr) (hmf : mt ≠ BExpr.fls)
    (hx1 : x ≠ BExpr.tru) (hx2 : orArgs x = [x])
    (h : ∃ e, eqnLookup m nt = some e ∧ GoodE e ∧ mt ∈ disjuncts e) :
    ∃ e, eqnLookup (orInto m k x) nt = some e ∧ GoodE e ∧ mt ∈ disjuncts e := by
  obtain ⟨e, he, hge, hme⟩ := h
  by_cases hk : nt = k
  · subst hk
    refine ⟨sOr e x, eqnLookup_orInto_same m nt x e he, (sOr_good e x hge hx1 hx2).1, ?_⟩
    exact (sOr_good e x hge hx1 hx2).2 mt (List.mem_append_left _ hme) hmf
  · exact ⟨e, by rw [eqnLookup_orInto_other m k nt x hk]; exact he, hge, hme⟩

/-- Or-ing a literal product into its own key establishes it as a
disjunct and keeps the shape. -/
theorem orInto_good_est (m : List (String × BExpr)) (nt : String) (mt : BExpr)
    (hmt : ALit mt)
    (h : ∃ e, eqnLookup m nt = some e ∧ GoodE e) :
    ∃ e, eqnLookup (orInto m nt mt) nt = some e ∧ GoodE e ∧ mt ∈ disjuncts e := by
  obtain ⟨e, he, hge⟩ := h
  obtain ⟨h1, h2, h3, _⟩ := hmt
  refine ⟨sOr e mt, eqnLookup_orInto_same m nt mt e he, (sOr_good e mt hge h1 h3).1, ?_⟩
  refine (sOr_good e mt hge h1 h3).2 mt (List.mem_append_right _ ?_) h2
  rw [h3]
  exact List.mem_singleton.mpr rfl

/-- The Mealy event loop keeps the target output equation well-shaped
when the or-ed condition is a literal product. -/
theorem event_fold_good (eventOutputs allOutputNames : List String) (cond : BExpr)
    (path : List (Option FNode)) (m0 : List (String × BExpr)) (nt : String)
    (hc1 : cond ≠ BExpr.tru) (hc2 : orArgs cond = [cond])
    (h : ∃ e, eqnLookup m0 nt = some e ∧ GoodE e) :
    ∃ e, eqnLookup (path.foldl
      (fun m stepOpt =>
        match stepOpt with
        | none => m
        | some st =>
          if st.type = some "event" ∧ st.node_data ∈ eventOutputs then
            if st.node_data ∈ allOutputNames then orInto m st.node_data cond else m
          else m) m0) nt = some e ∧ GoodE e := by
  refine foldl_pres (fun m => ∃ e, eqnLookup m nt = some e ∧ GoodE e) _ ?_ path m0 h
  intro m so hm
  cases so with
  | none => exact hm
  | some st =>
    show ∃ e, eqnLookup (if st.type = some "event" ∧ st.node_data ∈ eventOutputs then
      (if st.node_data ∈ allOutputNames then orInto m st.node_data cond else m)
      else m) nt = some e ∧ GoodE e
    by_cases h1 : st.type = some "event" ∧ st.node_data ∈ eventOutputs
    · rw [if_pos h1]
      by_cases h2 : st.node_data ∈ allOutputNames
      · rw [if_pos h2]
        exact orInto_good m st.node_data cond nt hc1 hc2 hm
      · rw [if_neg h2]
        exact hm
    · rw [if_neg h1]
      exact hm

/-- Processing one annotated path keeps the target output equation
well-shaped when every state code is non-empty. -/
theorem processPath_snd_good (inputVars eventOutputs allOutputNames : List String)
    (codes : List (Int × String))
    (acc : (List (String × BExpr)) × (List (String × BExpr)))
    (po : Option (List (Option FNode))) (nt : String)
    (hcne : ∀ c ∈ codes, c.2 ≠ "")
    (h : ∃ e, eqnLookup acc.2 nt = some e ∧ GoodE e) :
    ∃ e, eqnLookup (processPath inputVars eventOutputs allOutputNames codes acc po).2 nt
      = some e ∧ GoodE e := by
  cases po with
  | none => exact h
  | some path =>
    cases hh : path.head? with
    | none =>
      simp only [processPath, hh]
      exact h
    | some o =>
      cases o with
      | none =>
        simp only [processPath, hh]
        exact h
      | some sd =>
        cases hcl : codeLookup codes sd.id with
        | none =>
          simp only [processPath, hh, hcl]
          exact h
        | some startCode =>
          have hsc : startCode ≠ "" := codeLookup_ne codes sd.id startCode hcne hcl
          cases hgl : path.getLast? with
          | none =>
            simp only [processPath, hh, hcl, hgl]
            exact h
          | some o2 =>
            cases o2 with
            | none =>
              simp only [processPath, hh, hcl, hgl]
              exact h
            | some ed =>
              simp only [processPath, hh, hcl, hgl]
              by_cases hst : ed.type = some "state"
              · rw [if_pos hst]
                cases hecl : codeLookup codes ed.id with
                | none =>
                  simp only [hecl]
                  exact h
                | some endCode =>
                  simp only [hecl]
                  exact event_fold_good eventOutputs allOutputNames _ path acc.2 nt
                    (pathCondition_alit inputVars path startCode hsc).1
                    (pathCondition_alit inputVars path startCode hsc).2.2.1 h
              · rw [if_neg hst]
                exact h

/-- The whole path fold keeps the target output equation well-shaped. -/
theorem paths_fold_snd_good (inputVars eventOutputs allOutputNames : List String)
    (codes : List (Int × String)) (paths : List (Option (List (Option FNode))))
    (init : (List (String × BExpr)) × (List (String × BExpr))) (nt : String)
    (hcne : ∀ c ∈ codes, c.2 ≠ "")
    (h : ∃ e, eqnLookup init.2 nt = some e ∧ GoodE e) :
    ∃ e, eqnLookup (paths.foldl (processPath inputVars eventOutputs allOutputNames codes)
      init).2 nt = some e ∧ GoodE e := by
  refine foldl_pres (fun acc => ∃ e, eqnLookup acc.2 nt = some e ∧ GoodE e)
    _ ?_ paths init h
  intro acc po hacc
  exact processPath_snd_good inputVars eventOutputs allOutputNames codes acc po nt hcne hacc

/-- The inner Moore loop over one state's output names preserves which
keys are bound. -/
theorem moore_inner_isSome (aons : List String) (codes : List (Int × String))
    (sid : Int) (names : List String) (m0 : List (String × BExpr)) (nt : String) :
    (eqnLookup (names.foldl (mooreStep aons codes sid) m0) nt).isSome
      = (eqnLookup m0 nt).isSome := by
  refine foldl_pres (fun m => (eqnLookup m nt).isSome = (eqnLookup m0 nt).isSome)
    _ ?_ names m0 rfl
  intro m name hm
  rw [mooreStep]
  by_cases h1 : name ∈ aons
  · rw [if_pos h1]
    cases hf : codes.find? (fun q => q.1 = sid) with
    | none => exact hm
    | some cq =>
      show (eqnLookup (if cq.2 = "" then m else orInto m name (presentMinterm cq.2))
        nt).isSome = (eqnLookup m0 nt).isSome
      by_cases h2 : cq.2 = ""
      · rw [if_pos h2]
        exact hm
      · rw [if_neg h2, eqnLookup_orInto_isSome]
        exact hm
  · rw [if_neg h1]
    exact hm

/-- The inner Moore loop keeps the target output equation well-shaped. -/
theorem moore_inner_good (aons : List String) (codes : List (Int × String))
    (sid : Int) (names : List String) (m0 : List (String × BExpr)) (nt : String)
    (h : ∃ e, eqnLookup m0 nt = some e ∧ GoodE e) :
    ∃ e, eqnLookup (names.foldl (mooreStep aons codes sid) m0) nt = some e ∧ GoodE e := by
  refine foldl_pres (fun m => ∃ e, eqnLookup m nt = some e ∧ GoodE e) _ ?_ names m0 h
  intro m name hm
  rw [mooreStep]
  by_cases h1 : name ∈ aons
  · rw [if_pos h1]
    cases hf : codes.find? (fun q => q.1 = sid) with
    | none => exact hm
    | some cq =>
      show ∃ e, eqnLookup (if cq.2 = "" then m else orInto m name (presentMinterm cq.2))
        nt = some e ∧ GoodE e
      by_cases h2 : cq.2 = ""
      · rw [if_pos h2]
        exact hm
      · rw [if_neg h2]
        exact orInto_good m name (presentMinterm cq.2) nt
          (presentMinterm_alit cq.2 h2).1 (presentMinterm_alit cq.2 h2).2.2.1 hm
  · rw [if_neg h1]
    exact hm

/-- The inner Moore loop preserves an established disjunct. -/
theorem moore_inner_pres (aons : List String) (codes : List (Int × String))
    (sid : Int) (names : List String) (m0 : List (String × BExpr))
    (nt : String) (mt : BExpr) (hmf : mt ≠ BExpr.fls)
    (h : ∃ e, eqnLookup m0 nt = some e ∧ GoodE e ∧ mt ∈ disjuncts e) :
    ∃ e, eqnLookup (names.foldl (mooreStep aons codes sid) m0) nt = some e ∧
      GoodE e ∧ mt ∈ disjuncts e := by
  refine foldl_pres
    (fun m => ∃ e, eqnLookup m nt = some e ∧ GoodE e ∧ mt ∈ disjuncts e)
    _ ?_ names m0 h
  intro m name hm
  rw [mooreStep]
  by_cases h1 : name ∈ aons
  · rw [if_pos h1]
    cases hf : codes.find? (fun q => q.1 = sid) with
    | none => exact hm
    | some cq =>
      show ∃ e, eqnLookup (if cq.2 = "" then m else orInto m name (presentMinterm cq.2))
        nt = some e ∧ GoodE e ∧ mt ∈ disjuncts e
      by_cases h2 : cq.2 = ""
      · rw [if_pos h2]
        exact hm
      · rw [if_neg h2]
        exact orInto_good_pres m name (presentMinterm cq.2) nt mt hmf
          (presentMinterm_alit cq.2 h2).1 (presentMinterm_alit cq.2 h2).2.2.1 hm
  · rw [if_neg h1]
    exact hm

/-- The inner Moore loop establishes the state's minterm as a disjunct of
the visited output's equation. -/
theorem moore_inner_est (aons : List String) (codes : List (Int × String))
    (sid : Int) (names : List String) (m0 : List (String × BExpr))
    (nt : String) (cq : Int × String)
    (hname : nt ∈ names) (haon : nt ∈ aons)
    (hfind : codes.find? (fun q => q.1 = sid) = some cq) (hq : ¬(cq.2 = ""))
    (h : ∃ e, eqnLookup m0 nt = some e ∧ GoodE e) :
    ∃ e, eqnLookup (names.foldl (mooreStep aons codes sid) m0) nt = some e ∧
      GoodE e ∧ presentMinterm cq.2 ∈ disjuncts e := by
  obtain ⟨pre, post, rfl⟩ := List.append_of_mem hname
  rw [List.foldl_append, List.foldl_cons]
  have hpre := moore_inner_good aons codes sid pre m0 nt h
  have hest := orInto_good_est _ nt (presentMinterm cq.2)
    (presentMinterm_alit cq.2 hq) hpre
  refine moore_inner_pres aons codes sid post _ nt (presentMinterm cq.2)
    (presentMinterm_alit cq.2 hq).2.1 ?_
  rw [mooreStep, if_pos haon, hfind]
  show ∃ e, eqnLookup (if cq.2 = "" then pre.foldl (mooreStep aons codes sid) m0
    else orInto (pre.foldl (mooreStep aons codes sid) m0) nt (presentMinterm cq.2))
    nt = some e ∧ GoodE e ∧ presentMinterm cq.2 ∈ disjuncts e
  rw [if_neg hq]
  exact hest

/-- The outer Moore loop preserves which keys are bound. -/
theorem moore_outer_isSome (aons : List String) (codes : List (Int × String))
    (souts : List (Int × List String)) (m0 : List (String × BExpr)) (nt : String) :
    (eqnLookup (souts.foldl (fun m p => p.2.foldl (mooreStep aons codes p.1) m) m0)
      nt).isSome = (eqnLookup m0 nt).isSome := by
  refine foldl_pres (fun m => (eqnLookup m nt).isSome = (eqnLookup m0 nt).isSome)
    _ ?_ souts m0 rfl
  intro m p hm
  rw [moore_inner_isSome]
  exact hm

/-- The outer Moore loop preserves an established disjunct. -/
theorem moore_outer_pres (aons : List String) (codes : List (Int × String))
    (souts : List (Int × List String)) (m0 : List (String × BExpr))
    (nt : String) (mt : BExpr) (hmf : mt ≠ BExpr.fls)
    (h : ∃ e, eqnLookup m0 nt = some e ∧ GoodE e ∧ mt ∈ disjuncts e) :
    ∃ e, eqnLookup (souts.foldl (fun m p => p.2.foldl (mooreStep aons codes p.1) m) m0)
      nt = some e ∧ GoodE e ∧ mt ∈ disjuncts e := by
  refine foldl_pres
    (fun m => ∃ e, eqnLookup m nt = some e ∧ GoodE e ∧ mt ∈ disjuncts e)
    _ ?_ souts m0 h
  intro m p hm
  exact moore_inner_pres aons codes p.1 p.2 m nt mt hmf hm

/-- The outer Moore loop establishes the minterm of every listed state
as a disjunct of each of its outputs. -/
theorem moore_outer_est (aons : List String) (codes : List (Int × String))
    (souts : List (Int × List String)) (m0 : List (String × BExpr))
    (nt : String) (p0 : Int × List String) (cq : Int × String)
    (hp0 : p0 ∈ souts) (hname : nt ∈ p0.2) (haon : nt ∈ aons)
    (hfind : codes.find? (fun q => q.1 = p0.1) = some cq) (hq : ¬(cq.2 = ""))
    (h : ∃ e, eqnLookup m0 nt = some e ∧ GoodE e) :
    ∃ e, eqnLookup (souts.foldl (fun m p => p.2.foldl (mooreStep aons codes p.1) m) m0)
      nt = some e ∧ GoodE e ∧ presentMinterm cq.2 ∈ disjuncts e := by
  obtain ⟨pre, post, rfl⟩ := List.append_of_mem hp0
  rw [List.foldl_append, List.foldl_cons]
  have hpre : ∃ e, eqnLookup (pre.foldl
      (fun m p => p.2.foldl (mooreStep aons codes p.1) m) m0) nt = some e ∧ GoodE e := by
    refine foldl_pres (fun m => ∃ e, eqnLookup m nt = some e ∧ GoodE e) _ ?_ pre m0 h
    intro m p hm
    exact moore_inner_good aons codes p.1 p.2 m nt hm
  refine moore_outer_pres aons codes post _ nt (presentMinterm cq.2)
    (presentMinterm_alit cq.2 hq).2.1 ?_
  exact moore_inner_est aons codes p0.1 p0.2 _ nt cq hname haon hfind hq hpre

/-- C3 (amended): with a non-empty path list and non-empty state codes,
`generate_boolean_equations` binds every output name in its output map,
and for each (state id, output name) pair of the Moore table whose state
id has a code, that state's minterm is a disjunct of the output's
equation. -/
theorem moore_outputs_synthesized
    (paths : List (Option (List (Option FNode))))
    (codes : List (Int × String)) (inputVars eventOutputs : List String)
    (stateOutputs : List (Int × List String))
    (hp : paths ≠ []) (c0 : Int × String) (hc0 : codes.head? = some c0)
    (hbits : c0.2.length ≠ 0) (hcne : ∀ c ∈ codes, c.2 ≠ "") :
    (∀ name ∈ dedupFirst (eventOutputs ++ (stateOutputs.map (fun p => p.2)).flatten),
      (eqnLookup (generate_boolean_equations paths codes inputVars eventOutputs
        stateOutputs).2 name).isSome = true) ∧
    (∀ p ∈ stateOutputs, ∀ name ∈ p.2, ∀ cq,
      codes.find? (fun q => q.1 = p.1) = some cq →
      ∃ e, eqnLookup (generate_boolean_equations paths codes inputVars eventOutputs
          stateOutputs).2 name = some e ∧
        presentMinterm cq.2 ∈ disjuncts e) := by
  have hcodes : codes ≠ [] := by
    intro h
    rw [h] at hc0
    cases hc0
  have hguard : ¬(paths.isEmpty = true ∨ codes.isEmpty = true) := by
    intro h
    rcases h with h | h
    · exact hp (List.isEmpty_iff.mp h)
    · exact hcodes (List.isEmpty_iff.mp h)
  have hres2 : (generate_boolean_equations paths codes inputVars eventOutputs
      stateOutputs).2
      = stateOutputs.foldl
          (fun m p => p.2.foldl (mooreStep
            (dedupFirst (eventOutputs ++ (stateOutputs.map (fun p => p.2)).flatten))
            codes p.1) m)
          ((paths.foldl (processPath inputVars eventOutputs
            (dedupFirst (eventOutputs ++ (stateOutputs.map (fun p => p.2)).flatten)) codes)
            ((List.range c0.2.length).map (fun i => (yName i, BExpr.fls)),
             (dedupFirst (eventOutputs ++
               (stateOutputs.map (fun p => p.2)).flatten)).map
                 (fun n => (n, BExpr.fls)))).2) := by
    simp only [generate_boolean_equations]
    rw [if_neg hguard]
    rw [show ((codes.head?.map (fun p => p.2.length)).getD 0) = c0.2.length from by
      rw [hc0]; rfl]
    rw [if_neg hbits]
  constructor
  · intro name hname
    rw [hres2, moore_outer_isSome, paths_fold_snd_isSome]
    exact eqnLookup_init_map _ name hname
  · intro p hp0 name hname cq hfind
    rw [hres2]
    have hq : ¬(cq.2 = "") := hcne cq (List.mem_of_find?_eq_some hfind)
    have haon : name ∈ dedupFirst (eventOutputs ++
        (stateOutputs.map (fun q => q.2)).flatten) := by
      refine mem_dedupAux _ [] name (List.mem_append_right _ ?_) (by simp)
      exact List.mem_flatten.mpr ⟨p.2, List.mem_map.mpr ⟨p, hp0, rfl⟩, hname⟩
    have hQ : ∃ e, eqnLookup ((paths.foldl (processPath inputVars eventOutputs
        (dedupFirst (eventOutputs ++ (stateOutputs.map (fun p => p.2)).flatten)) codes)
        ((List.range c0.2.length).map (fun i => (yName i, BExpr.fls)),
         (dedupFirst (eventOutputs ++
           (stateOutputs.map (fun p => p.2)).flatten)).map
             (fun n => (n, BExpr.fls)))).2) name = some e ∧ GoodE e := by
      refine paths_fold_snd_good inputVars eventOutputs _ codes paths _ name hcne ?_
      exact ⟨BExpr.fls, eqnLookup_init_map_val _ name haon, goodE_fls⟩
    obtain ⟨e, he, _, hme⟩ := moore_outer_est _ codes stateOutputs _ name p cq
      hp0 hname haon hfind hq hQ
    exact ⟨e, he, hme⟩

/-- Closed witness for C3 on a one-state, one-Moore-output instance. -/
theorem moore_outputs_synthesized_witness :
    ([none] : List (Option (List (Option FNode)))) ≠ [] ∧
    ([((1 : Int), "0")].head? = some ((1 : Int), "0")) ∧
    ("0".length ≠ 0) ∧
    (∀ c ∈ [((1 : Int), "0")], c.2 ≠ "") ∧
    ((∀ name ∈ dedupFirst (([] : List String) ++
        (([((1 : Int), ["led"])]).map (fun p => p.2)).flatten),
      (eqnLookup (generate_boolean_equations [none] [((1 : Int), "0")] [] []
        [((1 : Int), ["led"])]).2 name).isSome = true) ∧
     (∀ p ∈ [((1 : Int), ["led"])], ∀ name ∈ p.2, ∀ cq,
        ([((1 : Int), "0")].find? (fun q => q.1 = p.1)) = some cq →
        ∃ e, eqnLookup (generate_boolean_equations [none] [((1 : Int), "0")] [] []
            [((1 : Int), ["led"])]).2 name = some e ∧
          presentMinterm cq.2 ∈ disjuncts e)) :=
  ⟨by simp, rfl, by decide, by decide,
    moore_outputs_synthesized [none] [((1 : Int), "0")] [] [] [((1 : Int), ["led"])]
      (by simp) ((1 : Int), "0") rfl (by decide) (by decide)⟩

end Chartonics
